import Mathlib

/-!
Verification of the `relnote` package (src/relnote/relnote.go), which merges
Markdown release-note fragments into a single document.

The Go code is shallowly embedded: Go strings become `List Char`, the
`rsc.io/markdown` block tree (an external collaborator of this package)
becomes the inductive `Block` below, covering exactly the block variants the
Go code's type switches handle, and the `map[string]*md.Link` link map becomes
an association list.  Go `int` becomes `Int`.  Functions from the Go standard
library that the code calls (`strings.Cut`, `strings.HasSuffix`,
`strings.Contains`, `strings.ContainsAny`, `strings.TrimSpace`, `path.Dir`,
`slices.Sort`) are embedded by their documented semantics.
-/

namespace Relnote

/-- Go strings, as lists of characters.  (UTF-8 bytewise comparison of Go
strings coincides with codepoint-wise comparison, so `Char`-wise lexicographic
order below is faithful.) -/
abbrev Str := List Char

/-- md.Position: the source line-range carried by every block. -/
structure Position where
  startLine : Int
  endLine : Int
deriving DecidableEq

/-- Inline markdown nodes, restricted to the constructors this package builds
and prints (md.Plain and md.Link; `PrintText` of a link prints its inner
inlines). -/
inductive Inline where
  | plain (txt : Str)
  | link (inner : List Inline) (url : Str)

mutual

def Inline.decEq : (a b : Inline) → Decidable (a = b)
  | .plain s, .plain t =>
    if h : s = t then .isTrue (by rw [h]) else .isFalse (by intro c; injection c; exact h ‹_›)
  | .plain _, .link _ _ => .isFalse (by intro c; exact Inline.noConfusion c)
  | .link _ _, .plain _ => .isFalse (by intro c; exact Inline.noConfusion c)
  | .link i u, .link j v =>
    if hu : u = v then
      match Inline.decEqList i j with
      | .isTrue hi => .isTrue (by rw [hi, hu])
      | .isFalse hi => .isFalse (by intro c; injection c; exact hi ‹_›)
    else .isFalse (by intro c; injection c; exact hu ‹_›)

def Inline.decEqList : (a b : List Inline) → Decidable (a = b)
  | [], [] => .isTrue rfl
  | [], _ :: _ => .isFalse (by intro c; exact List.noConfusion c)
  | _ :: _, [] => .isFalse (by intro c; exact List.noConfusion c)
  | a :: as, b :: bs =>
    match Inline.decEq a b with
    | .isTrue h1 =>
      match Inline.decEqList as bs with
      | .isTrue h2 => .isTrue (by rw [h1, h2])
      | .isFalse h2 => .isFalse (by intro c; injection c; exact h2 ‹_›)
    | .isFalse h1 => .isFalse (by intro c; injection c; exact h1 ‹_›)

end

instance : DecidableEq Inline := Inline.decEq

/-- md.Text: a positioned run of inline content (used standalone as a block
and inside Heading/Paragraph). -/
structure MDText where
  pos : Position
  inline : List Inline
deriving DecidableEq

/-- md.Block: the block variants handled by the Go code's type switches
(`text` and `position` in relnote.go). -/
inductive Block where
  | heading (pos : Position) (level : Int) (txt : MDText)
  | textblk (txt : MDText)
  | codeBlock (pos : Position) (txt : List Str)
  | htmlBlock (pos : Position) (txt : List Str)
  | list (pos : Position) (items : List Block)
  | item (pos : Position) (blocks : List Block)
  | empty (pos : Position)
  | paragraph (pos : Position) (txt : MDText)
  | quote (pos : Position) (blocks : List Block)

mutual

def Block.decEq : (a b : Block) → Decidable (a = b)
  | .heading p₁ l₁ t₁, .heading p₂ l₂ t₂ =>
    if h : p₁ = p₂ ∧ l₁ = l₂ ∧ t₁ = t₂ then .isTrue (by rw [h.1, h.2.1, h.2.2])
    else .isFalse (by intro c; injection c; exact h ⟨‹_›, ‹_›, ‹_›⟩)
  | .textblk t₁, .textblk t₂ =>
    if h : t₁ = t₂ then .isTrue (by rw [h])
    else .isFalse (by intro c; injection c; exact h ‹_›)
  | .codeBlock p₁ t₁, .codeBlock p₂ t₂ =>
    if h : p₁ = p₂ ∧ t₁ = t₂ then .isTrue (by rw [h.1, h.2])
    else .isFalse (by intro c; injection c; exact h ⟨‹_›, ‹_›⟩)
  | .htmlBlock p₁ t₁, .htmlBlock p₂ t₂ =>
    if h : p₁ = p₂ ∧ t₁ = t₂ then .isTrue (by rw [h.1, h.2])
    else .isFalse (by intro c; injection c; exact h ⟨‹_›, ‹_›⟩)
  | .list p₁ i₁, .list p₂ i₂ =>
    if hp : p₁ = p₂ then
      match Block.decEqList i₁ i₂ with
      | .isTrue hi => .isTrue (by rw [hp, hi])
      | .isFalse hi => .isFalse (by intro c; injection c; exact hi ‹_›)
    else .isFalse (by intro c; injection c; exact hp ‹_›)
  | .item p₁ b₁, .item p₂ b₂ =>
    if hp : p₁ = p₂ then
      match Block.decEqList b₁ b₂ with
      | .isTrue hi => .isTrue (by rw [hp, hi])
      | .isFalse hi => .isFalse (by intro c; injection c; exact hi ‹_›)
    else .isFalse (by intro c; injection c; exact hp ‹_›)
  | .empty p₁, .empty p₂ =>
    if h : p₁ = p₂ then .isTrue (by rw [h])
    else .isFalse (by intro c; injection c; exact h ‹_›)
  | .paragraph p₁ t₁, .paragraph p₂ t₂ =>
    if h : p₁ = p₂ ∧ t₁ = t₂ then .isTrue (by rw [h.1, h.2])
    else .isFalse (by intro c; injection c; exact h ⟨‹_›, ‹_›⟩)
  | .quote p₁ b₁, .quote p₂ b₂ =>
    if hp : p₁ = p₂ then
      match Block.decEqList b₁ b₂ with
      | .isTrue hi => .isTrue (by rw [hp, hi])
      | .isFalse hi => .isFalse (by intro c; injection c; exact hi ‹_›)
    else .isFalse (by intro c; injection c; exact hp ‹_›)
  | .heading _ _ _, .textblk _ => .isFalse (by intro c; exact Block.noConfusion c)
  | .heading _ _ _, .codeBlock _ _ => .isFalse (by intro c; exact Block.noConfusion c)
  | .heading _ _ _, .htmlBlock _ _ => .isFalse (by intro c; exact Block.noConfusion c)
  | .heading _ _ _, .list _ _ => .isFalse (by intro c; exact Block.noConfusion c)
  | .heading _ _ _, .item _ _ => .isFalse (by intro c; exact Block.noConfusion c)
  | .heading _ _ _, .empty _ => .isFalse (by intro c; exact Block.noConfusion c)
  | .heading _ _ _, .paragraph _ _ => .isFalse (by intro c; exact Block.noConfusion c)
  | .heading _ _ _, .quote _ _ => .isFalse (by intro c; exact Block.noConfusion c)
  | .textblk _, .heading _ _ _ => .isFalse (by intro c; exact Block.noConfusion c)
  | .textblk _, .codeBlock _ _ => .isFalse (by intro c; exact Block.noConfusion c)
  | .textblk _, .htmlBlock _ _ => .isFalse (by intro c; exact Block.noConfusion c)
  | .textblk _, .list _ _ => .isFalse (by intro c; exact Block.noConfusion c)
  | .textblk _, .item _ _ => .isFalse (by intro c; exact Block.noConfusion c)
  | .textblk _, .empty _ => .isFalse (by intro c; exact Block.noConfusion c)
  | .textblk _, .paragraph _ _ => .isFalse (by intro c; exact Block.noConfusion c)
  | .textblk _, .quote _ _ => .isFalse (by intro c; exact Block.noConfusion c)
  | .codeBlock _ _, .heading _ _ _ => .isFalse (by intro c; exact Block.noConfusion c)
  | .codeBlock _ _, .textblk _ => .isFalse (by intro c; exact Block.noConfusion c)
  | .codeBlock _ _, .htmlBlock _ _ => .isFalse (by intro c; exact Block.noConfusion c)
  | .codeBlock _ _, .list _ _ => .isFalse (by intro c; exact Block.noConfusion c)
  | .codeBlock _ _, .item _ _ => .isFalse (by intro c; exact Block.noConfusion c)
  | .codeBlock _ _, .empty _ => .isFalse (by intro c; exact Block.noConfusion c)
  | .codeBlock _ _, .paragraph _ _ => .isFalse (by intro c; exact Block.noConfusion c)
  | .codeBlock _ _, .quote _ _ => .isFalse (by intro c; exact Block.noConfusion c)
  | .htmlBlock _ _, .heading _ _ _ => .isFalse (by intro c; exact Block.noConfusion c)
  | .htmlBlock _ _, .textblk _ => .isFalse (by intro c; exact Block.noConfusion c)
  | .htmlBlock _ _, .codeBlock _ _ => .isFalse (by intro c; exact Block.noConfusion c)
  | .htmlBlock _ _, .list _ _ => .isFalse (by intro c; exact Block.noConfusion c)
  | .htmlBlock _ _, .item _ _ => .isFalse (by intro c; exact Block.noConfusion c)
  | .htmlBlock _ _, .empty _ => .isFalse (by intro c; exact Block.noConfusion c)
  | .htmlBlock _ _, .paragraph _ _ => .isFalse (by intro c; exact Block.noConfusion c)
  | .htmlBlock _ _, .quote _ _ => .isFalse (by intro c; exact Block.noConfusion c)
  | .list _ _, .heading _ _ _ => .isFalse (by intro c; exact Block.noConfusion c)
  | .list _ _, .textblk _ => .isFalse (by intro c; exact Block.noConfusion c)
  | .list _ _, .codeBlock _ _ => .isFalse (by intro c; exact Block.noConfusion c)
  | .list _ _, .htmlBlock _ _ => .isFalse (by intro c; exact Block.noConfusion c)
  | .list _ _, .item _ _ => .isFalse (by intro c; exact Block.noConfusion c)
  | .list _ _, .empty _ => .isFalse (by intro c; exact Block.noConfusion c)
  | .list _ _, .paragraph _ _ => .isFalse (by intro c; exact Block.noConfusion c)
  | .list _ _, .quote _ _ => .isFalse (by intro c; exact Block.noConfusion c)
  | .item _ _, .heading _ _ _ => .isFalse (by intro c; exact Block.noConfusion c)
  | .item _ _, .textblk _ => .isFalse (by intro c; exact Block.noConfusion c)
  | .item _ _, .codeBlock _ _ => .isFalse (by intro c; exact Block.noConfusion c)
  | .item _ _, .htmlBlock _ _ => .isFalse (by intro c; exact Block.noConfusion c)
  | .item _ _, .list _ _ => .isFalse (by intro c; exact Block.noConfusion c)
  | .item _ _, .empty _ => .isFalse (by intro c; exact Block.noConfusion c)
  | .item _ _, .paragraph _ _ => .isFalse (by intro c; exact Block.noConfusion c)
  | .item _ _, .quote _ _ => .isFalse (by intro c; exact Block.noConfusion c)
  | .empty _, .heading _ _ _ => .isFalse (by intro c; exact Block.noConfusion c)
  | .empty _, .textblk _ => .isFalse (by intro c; exact Block.noConfusion c)
  | .empty _, .codeBlock _ _ => .isFalse (by intro c; exact Block.noConfusion c)
  | .empty _, .htmlBlock _ _ => .isFalse (by intro c; exact Block.noConfusion c)
  | .empty _, .list _ _ => .isFalse (by intro c; exact Block.noConfusion c)
  | .empty _, .item _ _ => .isFalse (by intro c; exact Block.noConfusion c)
  | .empty _, .paragraph _ _ => .isFalse (by intro c; exact Block.noConfusion c)
  | .empty _, .quote _ _ => .isFalse (by intro c; exact Block.noConfusion c)
  | .paragraph _ _, .heading _ _ _ => .isFalse (by intro c; exact Block.noConfusion c)
  | .paragraph _ _, .textblk _ => .isFalse (by intro c; exact Block.noConfusion c)
  | .paragraph _ _, .codeBlock _ _ => .isFalse (by intro c; exact Block.noConfusion c)
  | .paragraph _ _, .htmlBlock _ _ => .isFalse (by intro c; exact Block.noConfusion c)
  | .paragraph _ _, .list _ _ => .isFalse (by intro c; exact Block.noConfusion c)
  | .paragraph _ _, .item _ _ => .isFalse (by intro c; exact Block.noConfusion c)
  | .paragraph _ _, .empty _ => .isFalse (by intro c; exact Block.noConfusion c)
  | .paragraph _ _, .quote _ _ => .isFalse (by intro c; exact Block.noConfusion c)
  | .quote _ _, .heading _ _ _ => .isFalse (by intro c; exact Block.noConfusion c)
  | .quote _ _, .textblk _ => .isFalse (by intro c; exact Block.noConfusion c)
  | .quote _ _, .codeBlock _ _ => .isFalse (by intro c; exact Block.noConfusion c)
  | .quote _ _, .htmlBlock _ _ => .isFalse (by intro c; exact Block.noConfusion c)
  | .quote _ _, .list _ _ => .isFalse (by intro c; exact Block.noConfusion c)
  | .quote _ _, .item _ _ => .isFalse (by intro c; exact Block.noConfusion c)
  | .quote _ _, .empty _ => .isFalse (by intro c; exact Block.noConfusion c)
  | .quote _ _, .paragraph _ _ => .isFalse (by intro c; exact Block.noConfusion c)

def Block.decEqList : (a b : List Block) → Decidable (a = b)
  | [], [] => .isTrue rfl
  | [], _ :: _ => .isFalse (by intro c; exact List.noConfusion c)
  | _ :: _, [] => .isFalse (by intro c; exact List.noConfusion c)
  | a :: as, b :: bs =>
    match Block.decEq a b with
    | .isTrue h1 =>
      match Block.decEqList as bs with
      | .isTrue h2 => .isTrue (by rw [h1, h2])
      | .isFalse h2 => .isFalse (by intro c; injection c; exact h2 ‹_›)
    | .isFalse h1 => .isFalse (by intro c; injection c; exact h1 ‹_›)

end

instance : DecidableEq Block := Block.decEq

/-- md.Link values stored in a document's link-reference map. -/
structure LinkRef where
  url : Str
  title : Str
deriving DecidableEq

/-- md.Document: a block sequence plus a link-reference map (embedded as an
association list; Go map iteration order is unspecified, the list order
stands in for it). -/
structure Document where
  blocks : List Block
  links : List (Str × LinkRef)
deriving DecidableEq

/-- `position` (relnote.go): the Position record of a block.  The Go function
returns a pointer to the block's own Position field; `md.Text` used as a block
exposes its own position. -/
def Block.pos : Block → Position
  | .heading p _ _ => p
  | .textblk t => t.pos
  | .codeBlock p _ => p
  | .htmlBlock p _ => p
  | .list p _ => p
  | .item p _ => p
  | .empty p => p
  | .paragraph p _ => p
  | .quote p _ => p

/-- `addLines` (relnote.go): add `n` lines to the position of `b` (only the
block's own Position record is touched, not its children's). -/
def addLines (b : Block) (n : Int) : Block :=
  match b with
  | .heading p l t => .heading ⟨p.startLine + n, p.endLine + n⟩ l t
  | .textblk t => .textblk ⟨⟨t.pos.startLine + n, t.pos.endLine + n⟩, t.inline⟩
  | .codeBlock p t => .codeBlock ⟨p.startLine + n, p.endLine + n⟩ t
  | .htmlBlock p t => .htmlBlock ⟨p.startLine + n, p.endLine + n⟩ t
  | .list p i => .list ⟨p.startLine + n, p.endLine + n⟩ i
  | .item p bs => .item ⟨p.startLine + n, p.endLine + n⟩ bs
  | .empty p => .empty ⟨p.startLine + n, p.endLine + n⟩
  | .paragraph p t => .paragraph ⟨p.startLine + n, p.endLine + n⟩ t
  | .quote p bs => .quote ⟨p.startLine + n, p.endLine + n⟩ bs

/-- `isHeading` (relnote.go): whether a block is a Heading node. -/
def isHeading : Block → Bool
  | .heading _ _ _ => true
  | _ => false

/-- Whether a block is an md.Empty node (the `*md.Empty` type assertions in
`Merge`). -/
def isEmptyBlock : Block → Bool
  | .empty _ => true
  | _ => false

/-- `lastBlock` (relnote.go) returns the last block of a document and panics
on an empty one; every call site guards non-emptiness, so the default value
here is never consulted. -/
def lastBlock (bs : List Block) : Block :=
  bs.getLastD (.empty ⟨0, 0⟩)

/-- `newdoc.Blocks[0]` in `Merge`; the call site guards non-emptiness. -/
def headBlock (bs : List Block) : Block :=
  bs.headD (.empty ⟨0, 0⟩)

/-! ### Go string helpers used by relnote.go -/

/-- `strings.HasPrefix`-style test: does `pat` begin `s`? -/
def strStartsWith (s pat : Str) : Bool :=
  match pat, s with
  | [], _ => true
  | _ :: _, [] => false
  | p :: ps, c :: cs => p == c && strStartsWith cs ps

/-- `strings.Contains s pat`: does `pat` occur contiguously in `s`? -/
def strContains : Str → Str → Bool
  | [], pat => strStartsWith [] pat
  | s@(_ :: t), pat => strStartsWith s pat || strContains t pat

/-- `strings.HasSuffix s pat`: does `s` end in `pat`? -/
def strHasSuffix (s pat : Str) : Bool :=
  strStartsWith s.reverse pat.reverse

/-- `strings.ContainsAny s chars`: does any character of `chars` occur in
`s`? -/
def containsAny (s chars : Str) : Bool :=
  s.any (fun c => chars.contains c)

/-- `strings.Join elems sep`. -/
def strJoin (ls : List Str) (sep : Str) : Str :=
  match ls with
  | [] => []
  | [s] => s
  | s :: rest => s ++ sep ++ strJoin rest sep

/-- `unicode.IsSpace` restricted to the Latin-1 space characters (the only
ones relevant to the claims; the full Unicode White_Space set adds more
codepoints above U+00FF). -/
def isSpaceGo (c : Char) : Bool :=
  c == ' ' || c == '\t' || c == '\n' || c == ⟨0x0B, by decide⟩ ||
  c == ⟨0x0C, by decide⟩ || c == '\r' || c == ⟨0x85, by decide⟩ || c == ⟨0xA0, by decide⟩

/-- `strings.TrimSpace`: drop spaces from both ends. -/
def trimSpace (s : Str) : Str :=
  ((s.dropWhile isSpaceGo).reverse.dropWhile isSpaceGo).reverse

/-! ### Text extraction (`text`, `blocksText`, `inlineText` in relnote.go) -/

mutual

/-- `PrintText` of an inline node: md.Plain writes its text, md.Link writes
the text of its inner inlines. -/
def inlinePrintText : Inline → Str
  | .plain s => s
  | .link inner _ => inlineListText inner

def inlineListText : List Inline → Str
  | [] => []
  | i :: is => inlinePrintText i ++ inlineListText is

end

/-- `inlineText` (relnote.go): all the text in a slice of inline nodes. -/
def inlineText (ins : List Inline) : Str :=
  inlineListText ins

mutual

/-- `text` (relnote.go): all the text in a block, without formatting.
Heading and Paragraph recurse into their md.Text child, which yields the
inline text of that child. -/
def text : Block → Str
  | .heading _ _ t => inlineText t.inline
  | .textblk t => inlineText t.inline
  | .codeBlock _ ls => strJoin ls ['\n']
  | .htmlBlock _ ls => strJoin ls ['\n']
  | .list _ items => blocksText items
  | .item _ bs => blocksText bs
  | .empty _ => []
  | .paragraph _ t => inlineText t.inline
  | .quote _ bs => blocksText bs

/-- `blocksText` (relnote.go): the text of each block followed by a newline
(`fmt.Fprintln`). -/
def blocksText : List Block → Str
  | [] => []
  | b :: bs => (text b ++ ['\n']) ++ blocksText bs

end

/-! ### CheckFragment -/

/-- The errors `CheckFragment` can report. -/
inductive CheckError where
  | emptyContent
  | noHeading
  | emptyHeading
  | nonMatchingHeading
  | incompleteSection (heading : Str)
deriving DecidableEq

/-- `headingTextMustMatch` (relnote.go): headings beginning with '+' do not
require a match; all others do. -/
def headingTextMustMatch (s : Str) : Bool :=
  match s with
  | [] => true
  | c :: _ => !(c == '+')

/-- The per-block content test in `CheckFragment`'s loop: the block's text
contains `TODO` or standard end-of-sentence punctuation. -/
def hasContent (t : Str) : Bool :=
  strContains t "TODO".toList || containsAny t ".?!".toList

/-- The section-scanning loop of `CheckFragment` over `doc.Blocks[1:]`:
`cur` is the heading beginning the current section and `found` records
whether the content looked for was found in it; returns the text of the
offending heading if the scan ends with `found` false. -/
def scanSections (cur : Block) (found : Bool) : List Block → Option Str
  | [] => if found then none else some (text cur)
  | b :: rest =>
    if isHeading b then
      if !found then some (text cur)
      else scanSections b false rest
    else scanSections cur (hasContent (text b)) rest

/-- `CheckFragment` (relnote.go), applied to the already-parsed document
(parsing raw text is the external collaborator's job). -/
def checkFragment (doc : Document) : Option CheckError :=
  match doc.blocks with
  | [] => some .emptyContent
  | b :: rest =>
    if !isHeading b then some .noHeading
    else if trimSpace (text b) == [] then some .emptyHeading
    else if !headingTextMustMatch (text b) then some .nonMatchingHeading
    else
      match scanSections b false rest with
      | some h => some (.incompleteSection h)
      | none => none

/-! ### The `*stdlib/*minor/P` path convention -/

/-- `strings.Cut s sep` (single-character separator): the text before and
after the first occurrence of `sep`, and whether it occurred. -/
def cut : Str → Char → Str × Str × Bool
  | [], _ => ([], [], false)
  | c :: cs, sep =>
    if c == sep then ([], cs, true)
    else
      let r := cut cs sep
      (c :: r.1, r.2.1, r.2.2)

/-- The `dir` part of Go's `path.Split p`: everything up to and including
the final slash. -/
def dirPart (p : Str) : Str :=
  (p.reverse.dropWhile (fun c => !(c == '/'))).reverse

/-- Split a path into its slash-separated segments. -/
def splitSegs (sep : Char) : Str → List Str
  | [] => [[]]
  | c :: cs =>
    let r := splitSegs sep cs
    if c == sep then [] :: r
    else
      match r with
      | [] => [[c]]
      | s :: rest => (c :: s) :: rest

/-- The segment loop of Go's `path.Clean`, with the output held as a reversed
stack: empty and `.` segments are dropped, `..` pops a non-`..` entry (and is
dropped at the root of a rooted path), anything else is pushed. -/
def cleanLoop (rooted : Bool) (stack : List Str) : List Str → List Str
  | [] => stack
  | seg :: rest =>
    if seg == [] || seg == ".".toList then cleanLoop rooted stack rest
    else if seg == "..".toList then
      match stack with
      | top :: stack' =>
        if top == "..".toList then cleanLoop rooted (seg :: top :: stack') rest
        else cleanLoop rooted stack' rest
      | [] => if rooted then cleanLoop rooted [] rest else cleanLoop rooted [seg] rest
    else cleanLoop rooted (seg :: stack) rest

/-- Modelled from the spec: Go's `path.Clean` (the document-path convention's
"final path component stripped" uses `path.Dir`, which is `Clean` of the part
before the final slash); this is the standard segment-stack formulation of the
lazybuf algorithm in Go's `path` package, which is not part of this
repository. -/
def pathClean (p : Str) : Str :=
  match p with
  | [] => ".".toList
  | c :: _ =>
    let rooted := c == '/'
    let stack := cleanLoop rooted [] (splitSegs '/' p)
    let core := strJoin stack.reverse ['/']
    if rooted then '/' :: core
    else if core == [] then ".".toList else core

/-- Go's `path.Dir p`: `Clean` of everything before the final path
component. -/
def pathDir (p : Str) : Str :=
  pathClean (dirPart p)

/-- `stdlibPackage` (relnote.go): the standard library package named by a
filename of the shape `*stdlib/*minor/P`, or the empty string. -/
def stdlibPackage (filename : Str) : Str :=
  match cut filename '/' with
  | (dir, rest, _) =>
    if !strHasSuffix dir "stdlib".toList then []
    else
      match cut rest '/' with
      | (dir2, rest2, _) =>
        if !strHasSuffix dir2 "minor".toList then []
        else if pathDir rest2 == ".".toList then [] else pathDir rest2

/-- `stdlibPackageHeading` (relnote.go): a level-4 heading two lines after
`lastLine` whose text is a single link labelled `pkg` targeting
`/pkg/<pkg>/`. -/
def stdlibPackageHeading (pkg : Str) (lastLine : Int) : Block :=
  let pos : Position := ⟨lastLine + 2, lastLine + 2⟩
  .heading pos 4
    ⟨pos, [.link [.plain pkg] ("/pkg/".toList ++ pkg ++ "/".toList)]⟩

/-! ### removeEmptySections -/

/-- The `rem` closure of `removeEmptySections`, acting on the result sequence
held in reverse (most recently appended block first): pop trailing headings of
level ≥ `level`, growing the running line-delta by each popped heading's span
plus 2. -/
def remHeadings (level : Int) : List Block → Int → List Block × Int
  | [], delta => ([], delta)
  | b :: rest, delta =>
    match b with
    | .heading p lvl t =>
      if level ≤ lvl then remHeadings level rest (delta + (p.endLine - p.startLine + 2))
      else (Block.heading p lvl t :: rest, delta)
    | _ => (b :: rest, delta)

/-- The main loop of `removeEmptySections` (result sequence held in
reverse): a heading first pops trailing same-or-higher-level headings, and
every appended block is shifted down by the running delta. -/
def pruneLoop : List Block → List Block → Int → List Block × Int
  | [], res, delta => (res, delta)
  | b :: bs, res, delta =>
    match b with
    | .heading p lvl t =>
      let rd := remHeadings lvl res delta
      pruneLoop bs (addLines (Block.heading p lvl t) (-rd.2) :: rd.1) rd.2
    | _ => pruneLoop bs (addLines b (-delta) :: res) delta

/-- `removeEmptySections` (relnote.go): remove headings with no content,
shifting later blocks up to close the gaps; a final `rem(1)` strips empty
headings dangling at the end of the document. -/
def removeEmptySections (bs : List Block) : List Block :=
  let rd := pruneLoop bs [] 0
  (remHeadings 1 rd.1 rd.2).1.reverse

/-! ### Merge -/

inductive MergeError where
  | duplicateLink (key : Str) (filename : Str)
deriving DecidableEq

instance {ε α : Type} [DecidableEq ε] [DecidableEq α] : DecidableEq (Except ε α) := fun x y =>
  match x, y with
  | .ok a, .ok b =>
    if h : a = b then .isTrue (by rw [h]) else .isFalse (by intro c; injection c; exact h ‹_›)
  | .error e, .error f =>
    if h : e = f then .isTrue (by rw [h]) else .isFalse (by intro c; injection c; exact h ‹_›)
  | .ok _, .error _ => .isFalse (by intro c; exact Except.noConfusion c)
  | .error _, .ok _ => .isFalse (by intro c; exact Except.noConfusion c)

/-- `doc.Links[key]` on the association-list embedding of the link map. -/
def lookupLink : List (Str × LinkRef) → Str → Option LinkRef
  | [], _ => none
  | (k', v) :: rest, k => if k' == k then some v else lookupLink rest k

/-- The link-merging loop of `Merge`: each key of the fragment's map is
inserted into the accumulator unless the accumulator already holds an entry
for it, in which case merging fails naming the key and the current file. -/
def mergeLinks (filename : Str) (acc : List (Str × LinkRef)) :
    List (Str × LinkRef) → Except MergeError (List (Str × LinkRef))
  | [] => .ok acc
  | (k, v) :: rest =>
    if (lookupLink acc k).isSome then .error (.duplicateLink k filename)
    else mergeLinks filename (acc ++ [(k, v)]) rest

/-- The state threaded through `Merge`'s file loop: the accumulator document
(blocks and links) and the previous stdlib package. -/
structure MergeState where
  blocks : List Block
  links : List (Str × LinkRef)
  prevPkg : Str
deriving DecidableEq

/-- The package-heading insertion step of `Merge`: if `pkg` is nonempty and
differs from the previous package, append a synthetic heading two lines after
the accumulator's last block. -/
def accWithPkgHeading (st : MergeState) (pkg : Str) : List Block :=
  if pkg ≠ [] ∧ pkg ≠ st.prevPkg then
    st.blocks ++ [stdlibPackageHeading pkg (lastBlock st.blocks).pos.endLine]
  else st.blocks

/-- One iteration of `Merge`'s file loop: skip empty fragments; otherwise
optionally insert a package heading, shift the fragment two lines below the
accumulator (when the accumulator is non-empty), append its non-Empty blocks,
and merge its links. -/
def mergeFile (st : MergeState) (filename : Str) (newdoc : Document) :
    Except MergeError MergeState :=
  if newdoc.blocks = [] then .ok st
  else if st.blocks = [] then
    match mergeLinks filename st.links newdoc.links with
    | .error e => .error e
    | .ok links' => .ok ⟨newdoc.blocks.filter (fun b => !isEmptyBlock b), links', st.prevPkg⟩
  else
    let pkg := stdlibPackage filename
    let acc := accWithPkgHeading st pkg
    let delta := (lastBlock acc).pos.endLine + 2 - (headBlock newdoc.blocks).pos.startLine
    let shifted := newdoc.blocks.map (fun b => addLines b delta)
    match mergeLinks filename st.links newdoc.links with
    | .error e => .error e
    | .ok links' => .ok ⟨acc ++ shifted.filter (fun b => !isEmptyBlock b), links', pkg⟩

/-- `Merge`'s fold over the sorted file list. -/
def mergeLoop : MergeState → List (Str × Document) → Except MergeError MergeState
  | st, [] => .ok st
  | st, (fn, d) :: rest =>
    match mergeFile st fn d with
    | .error e => .error e
    | .ok st' => mergeLoop st' rest

/-- The tail of `Merge`: fold all files, prune empty sections, and if both
the pruned blocks and the link map are non-empty append a blank-line Empty
block two lines below the last block's position. -/
def mergeDocs (files : List (Str × Document)) : Except MergeError Document :=
  match mergeLoop ⟨[], [], []⟩ files with
  | .error e => .error e
  | .ok st =>
    let blocks := removeEmptySections st.blocks
    if blocks ≠ [] ∧ st.links ≠ [] then
      let lp := (lastBlock blocks).pos
      .ok ⟨blocks ++ [.empty ⟨lp.startLine + 2, lp.endLine + 2⟩], st.links⟩
    else .ok ⟨blocks, st.links⟩

/-- Go string `<=` (bytewise lexicographic; UTF-8 byte order equals codepoint
order, so `Char` order is faithful). -/
def strLe : Str → Str → Bool
  | [], _ => true
  | _ :: _, [] => false
  | a :: as, b :: bs => if a < b then true else if b < a then false else strLe as bs

/-- `strLe` as a relation, for `List.insertionSort`. -/
def StrLeR (a b : Str) : Prop := strLe a b = true

instance : DecidableRel StrLeR := fun a b => inferInstanceAs (Decidable (strLe a b = true))

/-- `sortedMarkdownFilenames` (relnote.go): the names of the `.md` files of
the tree (the tree is embedded as an association list from full relative path
to parsed document), sorted lexicographically.  `slices.Sort` on a totally
ordered type is embedded as insertion sort, which produces the same sorted
permutation. -/
def sortedMarkdownFilenames (fsys : List (Str × Document)) : List Str :=
  List.insertionSort StrLeR ((fsys.map Prod.fst).filter (fun p => strHasSuffix p ".md".toList))

/-- `parseFile` composed with the filesystem: reading and parsing a file of
the tree yields its recorded document. -/
def lookupDoc : List (Str × Document) → Str → Document
  | [], _ => ⟨[], []⟩
  | (fn', d) :: rest, fn => if fn' == fn then d else lookupDoc rest fn

/-- `Merge` (relnote.go): combine the markdown documents of the tree in
lexicographic filename order. -/
def Merge (fsys : List (Str × Document)) : Except MergeError Document :=
  mergeDocs ((sortedMarkdownFilenames fsys).map (fun fn => (fn, lookupDoc fsys fn)))

/-! ### Lexicographic order facts (for C9) -/

theorem strLe_total : ∀ a b : Str, strLe a b = true ∨ strLe b a = true := by
  intro a
  induction a with
  | nil => intro b; left; rfl
  | cons x xs ih =>
    intro b
    cases b with
    | nil => right; rfl
    | cons y ys =>
      rcases lt_trichotomy x y with h | h | h
      · left; simp [strLe, h]
      · subst h
        rcases ih ys with h' | h'
        · left; simp [strLe, lt_irrefl, h']
        · right; simp [strLe, lt_irrefl, h']
      · right; simp [strLe, h]

theorem strLe_trans : ∀ a b c : Str, strLe a b = true → strLe b c = true → strLe a c = true := by
  intro a
  induction a with
  | nil => intro b c _ _; rfl
  | cons x xs ih =>
    intro b c hab hbc
    cases b with
    | nil => simp [strLe] at hab
    | cons y ys =>
      cases c with
      | nil => simp [strLe] at hbc
      | cons z zs =>
        rcases lt_trichotomy x y with hxy | hxy | hxy
        · rcases lt_trichotomy y z with hyz | hyz | hyz
          · simp [strLe, lt_trans hxy hyz]
          · subst hyz; simp [strLe, hxy]
          · simp [strLe, hyz, not_lt_of_lt hyz] at hbc
        · subst hxy
          rcases lt_trichotomy x z with hyz | hyz | hyz
          · simp [strLe, hyz]
          · subst hyz
            simp [strLe, lt_irrefl] at hab hbc ⊢
            exact ih _ _ hab hbc
          · simp [strLe, hyz, not_lt_of_lt hyz] at hbc
        · simp [strLe, hxy, not_lt_of_lt hxy] at hab

instance : IsTotal Str StrLeR := ⟨strLe_total⟩

instance : IsTrans Str StrLeR := ⟨fun a b c => strLe_trans a b c⟩

/-- C9: Merge processes exactly the files of the tree whose full relative
path ends in ".md", sorted lexicographically by raw codepoint value: the
sorted list is a permutation of the ".md"-suffixed paths, it is sorted under
the codepoint order, "net.md" sorts before every path that extends "net/",
and the files ["a/one.md", "a.md", "b.md"] are merged in the order
["a.md", "a/one.md", "b.md"]. -/
theorem claim_C9 :
    (∀ fsys : List (Str × Document),
      (sortedMarkdownFilenames fsys).Perm
        ((fsys.map Prod.fst).filter (fun p => strHasSuffix p ".md".toList)))
  ∧ (∀ fsys : List (Str × Document), (sortedMarkdownFilenames fsys).Sorted StrLeR)
  ∧ (∀ s : Str, StrLeR "net.md".toList ('n' :: 'e' :: 't' :: '/' :: s))
  ∧ sortedMarkdownFilenames
      [("a/one.md".toList, ⟨[], []⟩), ("a.md".toList, ⟨[], []⟩), ("b.md".toList, ⟨[], []⟩)] =
      ["a.md".toList, "a/one.md".toList, "b.md".toList] := by
  refine ⟨fun fsys => List.perm_insertionSort _ _, fun fsys => List.sorted_insertionSort _ _,
    fun s => rfl, by decide⟩

/-! ### `cut` and suffix facts (for C5) -/


theorem cut_of_noSlash (s : Str) (h : ∀ c ∈ s, c ≠ '/') : cut s '/' = (s, [], false) := by
  induction s with
  | nil => rfl
  | cons c cs ih =>
    have hc : c ≠ '/' := h c (by simp)
    have ih' := ih (fun d hd => h d (by simp [hd]))
    simp only [cut, beq_iff_eq, if_neg hc, ih']

theorem cut_append (s t : Str) (h : ∀ c ∈ s, c ≠ '/') :
    cut (s ++ '/' :: t) '/' = (s, t, true) := by
  induction s with
  | nil => simp [cut]
  | cons c cs ih =>
    have hc : c ≠ '/' := h c (by simp)
    have ih' := ih (fun d hd => h d (by simp [hd]))
    simp only [List.cons_append, cut, beq_iff_eq, if_neg hc, List.append_eq, ih']

theorem cut_found (s : Str) : ∀ a b : Str, cut s '/' = (a, b, true) →
    s = a ++ '/' :: b ∧ ∀ c ∈ a, c ≠ '/' := by
  induction s with
  | nil => intro a b h; simp [cut] at h
  | cons c cs ih =>
    intro a b h
    by_cases hc : c = '/'
    · subst hc
      rw [show cut ('/' :: cs) '/' = ([], cs, true) by simp [cut]] at h
      simp only [Prod.mk.injEq] at h
      obtain ⟨rfl, rfl, -⟩ := h
      exact ⟨rfl, by simp⟩
    · simp only [cut, beq_iff_eq, if_neg hc] at h
      rcases hcc : cut cs '/' with ⟨a', rest⟩
      rcases rest with ⟨b', fd'⟩
      rw [hcc] at h
      simp only [Prod.mk.injEq] at h
      obtain ⟨rfl, rfl, rfl⟩ := h
      obtain ⟨e1, e2⟩ := ih a' b' hcc
      constructor
      · rw [List.cons_append, ← e1]
      · intro d hd
        rcases List.mem_cons.mp hd with rfl | hd'
        · exact hc
        · exact e2 d hd'

theorem cut_notfound (s : Str) : ∀ a b : Str, cut s '/' = (a, b, false) →
    s = a ∧ b = [] ∧ ∀ c ∈ a, c ≠ '/' := by
  induction s with
  | nil =>
    intro a b h
    simp only [cut, Prod.mk.injEq] at h
    obtain ⟨rfl, rfl, -⟩ := h
    exact ⟨rfl, rfl, by simp⟩
  | cons c cs ih =>
    intro a b h
    by_cases hc : c = '/'
    · subst hc; simp [cut] at h
    · simp only [cut, beq_iff_eq, if_neg hc] at h
      rcases hcc : cut cs '/' with ⟨a', rest⟩
      rcases rest with ⟨b', fd'⟩
      rw [hcc] at h
      simp only [Prod.mk.injEq] at h
      obtain ⟨rfl, rfl, rfl⟩ := h
      obtain ⟨e1, e2, e3⟩ := ih a' b' hcc
      refine ⟨by rw [e1], e2, ?_⟩
      intro d hd
      rcases List.mem_cons.mp hd with rfl | hd'
      · exact hc
      · exact e3 d hd'

theorem strStartsWith_iff (pat s : Str) :
    strStartsWith s pat = true ↔ ∃ r, s = pat ++ r := by
  induction pat generalizing s with
  | nil => simp [strStartsWith]
  | cons p ps ih =>
    cases s with
    | nil => simp [strStartsWith]
    | cons c cs =>
      simp only [strStartsWith, Bool.and_eq_true, beq_iff_eq, ih, List.cons_append,
        List.cons.injEq]
      constructor
      · rintro ⟨rfl, r, rfl⟩; exact ⟨r, rfl, rfl⟩
      · rintro ⟨r, rfl, rfl⟩; exact ⟨rfl, r, rfl⟩

theorem strHasSuffix_iff (s pat : Str) :
    strHasSuffix s pat = true ↔ ∃ x, s = x ++ pat := by
  unfold strHasSuffix
  rw [strStartsWith_iff]
  constructor
  · rintro ⟨r, hr⟩
    refine ⟨r.reverse, ?_⟩
    have := congrArg List.reverse hr
    simpa using this
  · rintro ⟨x, rfl⟩
    exact ⟨x.reverse, by simp⟩

theorem strHasSuffix_append (x pat : Str) : strHasSuffix (x ++ pat) pat = true :=
  (strHasSuffix_iff _ _).mpr ⟨x, rfl⟩

theorem stdlibPackage_eq (f a b a2 b2 : Str) (fd fd2 : Bool)
    (h1 : cut f '/' = (a, b, fd)) (h2 : cut b '/' = (a2, b2, fd2)) :
    stdlibPackage f =
      if !strHasSuffix a "stdlib".toList then []
      else if !strHasSuffix a2 "minor".toList then []
      else if pathDir b2 == ".".toList then [] else pathDir b2 := by
  unfold stdlibPackage
  rw [h1]
  dsimp only
  rw [h2]

/-- C5: stdlibPackage returns a non-empty package exactly on filenames of the
shape `<X>stdlib/<Y>minor/<P>` — a first path segment ending in the literal
suffix "stdlib", a second segment ending in the literal suffix "minor", and a
remainder whose directory part (`path.Dir`, the final path component
stripped) is non-empty and not "." — in which case it returns that directory
part; the suffix match is literal, so a segment named "xstdlib" also
qualifies. -/
theorem claim_C5 :
    (∀ x y p : Str, (∀ c ∈ x, c ≠ '/') → (∀ c ∈ y, c ≠ '/') →
      stdlibPackage (x ++ "stdlib".toList ++ '/' :: (y ++ "minor".toList ++ '/' :: p)) =
        if pathDir p = ".".toList then [] else pathDir p)
  ∧ (∀ f : Str, stdlibPackage f ≠ [] →
      ∃ x y p : Str, (∀ c ∈ x ++ "stdlib".toList, c ≠ '/') ∧
        (∀ c ∈ y ++ "minor".toList, c ≠ '/') ∧
        f = (x ++ "stdlib".toList) ++ '/' :: ((y ++ "minor".toList) ++ '/' :: p) ∧
        pathDir p ≠ ".".toList ∧ pathDir p ≠ [] ∧ stdlibPackage f = pathDir p)
  ∧ stdlibPackage "xstdlib/yminor/a/b.md".toList = "a".toList := by
  have litS : ∀ c ∈ "stdlib".toList, c ≠ '/' := by decide
  have litM : ∀ c ∈ "minor".toList, c ≠ '/' := by decide
  refine ⟨?_, ?_, by decide⟩
  · intro x y p hx hy
    have hxs : ∀ c ∈ x ++ "stdlib".toList, c ≠ '/' := by
      intro c hc
      rcases List.mem_append.mp hc with h | h
      · exact hx c h
      · exact litS c h
    have hys : ∀ c ∈ y ++ "minor".toList, c ≠ '/' := by
      intro c hc
      rcases List.mem_append.mp hc with h | h
      · exact hy c h
      · exact litM c h
    have h1 : cut (x ++ "stdlib".toList ++ '/' :: (y ++ "minor".toList ++ '/' :: p)) '/' =
        (x ++ "stdlib".toList, y ++ "minor".toList ++ '/' :: p, true) := by
      have := cut_append (x ++ "stdlib".toList) (y ++ "minor".toList ++ '/' :: p) hxs
      simpa [List.append_assoc] using this
    have h2 : cut (y ++ "minor".toList ++ '/' :: p) '/' = (y ++ "minor".toList, p, true) := by
      have := cut_append (y ++ "minor".toList) p hys
      simpa [List.append_assoc] using this
    rw [stdlibPackage_eq _ _ _ _ _ _ _ h1 h2]
    simp only [strHasSuffix_append, Bool.not_true, Bool.false_eq_true, if_false]
    by_cases hp : pathDir p = ".".toList <;> simp [hp]
  · intro f hf
    rcases hc1 : cut f '/' with ⟨a, rest1⟩
    rcases rest1 with ⟨b, fd⟩
    rcases hc2 : cut b '/' with ⟨a2, rest2⟩
    rcases rest2 with ⟨b2, fd2⟩
    have heq := stdlibPackage_eq f a b a2 b2 fd fd2 hc1 hc2
    rw [heq] at hf
    obtain ⟨hsa, hsb, hdot, hnil⟩ :
        strHasSuffix a "stdlib".toList = true ∧ strHasSuffix a2 "minor".toList = true ∧
          pathDir b2 ≠ ".".toList ∧ pathDir b2 ≠ [] := by
      by_cases h1 : strHasSuffix a "stdlib".toList = true
      · by_cases h2 : strHasSuffix a2 "minor".toList = true
        · by_cases h3 : pathDir b2 = ".".toList
          · exfalso; apply hf; rw [h1, h2, h3]; simp
          · refine ⟨h1, h2, h3, ?_⟩
            intro hn; apply hf
            rw [h1, h2, hn]; simp
        · exfalso; apply hf
          simp only [Bool.not_eq_true] at h2
          rw [h2]; simp
      · exfalso; apply hf
        simp only [Bool.not_eq_true] at h1
        rw [h1]; simp
    have hpkg : stdlibPackage f = pathDir b2 := by
      rw [heq, hsa, hsb, beq_eq_false_iff_ne.mpr hdot]
      simp
    cases fd2 with
    | false =>
      obtain ⟨-, hb2, -⟩ := cut_notfound b a2 b2 hc2
      subst hb2
      exact absurd (by decide : pathDir ([] : Str) = ".".toList) hdot
    | true =>
      obtain ⟨hb, hna2⟩ := cut_found b a2 b2 hc2
      cases fd with
      | false =>
        obtain ⟨-, hbnil, -⟩ := cut_notfound f a b hc1
        rw [hbnil] at hb
        exact absurd hb.symm (by simp)
      | true =>
        obtain ⟨hfeq, hna⟩ := cut_found f a b hc1
        obtain ⟨x, hax⟩ := (strHasSuffix_iff _ _).mp hsa
        obtain ⟨y, hay⟩ := (strHasSuffix_iff _ _).mp hsb
        refine ⟨x, y, b2, hax ▸ hna, hay ▸ hna2, ?_, hdot, hnil, hpkg⟩
        rw [← hax, ← hay, ← hb, ← hfeq]

theorem claim_C5_witness :
    stdlibPackage ("x".toList ++ "stdlib".toList ++ '/' ::
        ("y".toList ++ "minor".toList ++ '/' :: "a/b.md".toList)) =
      if pathDir "a/b.md".toList = ".".toList then [] else pathDir "a/b.md".toList :=
  claim_C5.1 "x".toList "y".toList "a/b.md".toList (by decide) (by decide)

/-! ### Link merging (C2) -/

theorem lookupLink_append (l1 l2 : List (Str × LinkRef)) (k : Str) :
    lookupLink (l1 ++ l2) k =
      match lookupLink l1 k with
      | some v => some v
      | none => lookupLink l2 k := by
  induction l1 with
  | nil => simp [lookupLink]
  | cons p rest ih =>
    rcases p with ⟨k', v⟩
    by_cases hk : k' == k
    · simp [lookupLink, hk]
    · simp only [Bool.not_eq_true] at hk
      simp [lookupLink, hk, ih]

theorem mergeLinks_ok (fn : Str) :
    ∀ (l acc : List (Str × LinkRef)),
    (∀ k ∈ l.map Prod.fst, lookupLink acc k = none) →
    (l.map Prod.fst).Nodup →
    mergeLinks fn acc l = .ok (acc ++ l) := by
  intro l
  induction l with
  | nil => intro acc _ _; simp [mergeLinks]
  | cons p rest ih =>
    rcases p with ⟨k, v⟩
    intro acc hfresh hnd
    have hk : lookupLink acc k = none :=
      hfresh k (by rw [List.map_cons]; exact List.mem_cons_self _ _)
    have hnotin : k ∉ rest.map Prod.fst := by
      have := hnd
      simp only [List.map_cons, List.nodup_cons] at this
      exact this.1
    have hfresh' : ∀ k' ∈ rest.map Prod.fst, lookupLink (acc ++ [(k, v)]) k' = none := by
      intro k' hk'
      rw [lookupLink_append]
      have h1 : lookupLink acc k' = none :=
        hfresh k' (by rw [List.map_cons]; exact List.mem_cons_of_mem _ hk')
      have h2 : ¬(k == k') = true := by
        simp only [beq_iff_eq]
        intro he
        exact hnotin (he ▸ hk')
      simp only [h1]
      simp [lookupLink, h2]
    have hnd' : (rest.map Prod.fst).Nodup := by
      simp only [List.map_cons, List.nodup_cons] at hnd
      exact hnd.2
    have := ih (acc ++ [(k, v)]) hfresh' hnd'
    simp only [mergeLinks, hk, Option.isSome_none, Bool.false_eq_true, if_false, this]
    rw [List.append_assoc]
    simp

theorem mergeLinks_error (fn : Str) :
    ∀ (l acc : List (Str × LinkRef)), (l.map Prod.fst).Nodup →
    (∀ e, mergeLinks fn acc l = .error e →
      ∃ k, e = .duplicateLink k fn ∧ k ∈ l.map Prod.fst ∧ (lookupLink acc k).isSome = true) := by
  intro l
  induction l with
  | nil => intro acc _ e he; simp [mergeLinks] at he
  | cons p rest ih =>
    rcases p with ⟨k, v⟩
    intro acc hnd e he
    by_cases hk : (lookupLink acc k).isSome = true
    · simp only [mergeLinks, hk, if_true] at he
      injection he with he'
      exact ⟨k, he'.symm, by rw [List.map_cons]; exact List.mem_cons_self _ _, hk⟩
    · simp only [Bool.not_eq_true] at hk
      simp only [mergeLinks, hk, Bool.false_eq_true, if_false] at he
      have hnd' : (rest.map Prod.fst).Nodup := by
        simp only [List.map_cons, List.nodup_cons] at hnd
        exact hnd.2
      obtain ⟨k', he', hmem, hsome⟩ := ih (acc ++ [(k, v)]) hnd' e he
      refine ⟨k', he', by rw [List.map_cons]; exact List.mem_cons_of_mem _ hmem, ?_⟩
      rw [lookupLink_append] at hsome
      rcases hacc : lookupLink acc k' with - | w
      · rw [hacc] at hsome
        have hne : ¬(k == k') = true := by
          simp only [beq_iff_eq]
          intro hkk
          subst hkk
          simp only [List.map_cons, List.nodup_cons] at hnd
          exact hnd.1 hmem
        simp [lookupLink, hne] at hsome
      · rw [hacc] at hsome
        simp [hacc]

theorem mergeLinks_error_iff (fn : Str) :
    ∀ (l acc : List (Str × LinkRef)), (l.map Prod.fst).Nodup →
    ((∃ e, mergeLinks fn acc l = .error e) ↔
      ∃ k ∈ l.map Prod.fst, (lookupLink acc k).isSome = true) := by
  intro l
  induction l with
  | nil =>
    intro acc _
    simp [mergeLinks]
  | cons p rest ih =>
    rcases p with ⟨k, v⟩
    intro acc hnd
    have hnd' : (rest.map Prod.fst).Nodup := by
      simp only [List.map_cons, List.nodup_cons] at hnd
      exact hnd.2
    by_cases hk : (lookupLink acc k).isSome = true
    · constructor
      · intro _; exact ⟨k, by rw [List.map_cons]; exact List.mem_cons_self _ _, hk⟩
      · intro _; exact ⟨.duplicateLink k fn, by simp [mergeLinks, hk]⟩
    · simp only [Bool.not_eq_true] at hk
      constructor
      · intro ⟨e, he⟩
        simp only [mergeLinks, hk, Bool.false_eq_true, if_false] at he
        obtain ⟨k', hmem, hsome⟩ := (ih (acc ++ [(k, v)]) hnd').mp ⟨e, he⟩
        refine ⟨k', by rw [List.map_cons]; exact List.mem_cons_of_mem _ hmem, ?_⟩
        rw [lookupLink_append] at hsome
        rcases hacc : lookupLink acc k' with - | w
        · rw [hacc] at hsome
          have hne : ¬(k == k') = true := by
            simp only [beq_iff_eq]
            intro hkk
            subst hkk
            simp only [List.map_cons, List.nodup_cons] at hnd
            exact hnd.1 hmem
          simp [lookupLink, hne] at hsome
        · simp [hacc]
      · intro ⟨k', hmem, hsome⟩
        rw [List.map_cons] at hmem
        rcases List.mem_cons.mp hmem with rfl | hmem'
        · rw [hk] at hsome
          simp at hsome
        · have : ∃ e, mergeLinks fn (acc ++ [(k, v)]) rest = .error e := by
            apply (ih (acc ++ [(k, v)]) hnd').mpr
            refine ⟨k', hmem', ?_⟩
            rw [lookupLink_append]
            rcases hacc : lookupLink acc k' with - | w
            · rw [hacc] at hsome
              simp at hsome
            · simp [hacc]
          obtain ⟨e, he⟩ := this
          exact ⟨e, by simp [mergeLinks, hk, he]⟩

/-- C2 (amended): when Merge folds a fragment's link map (with its
internally unique keys) into the accumulator, it succeeds and appends every
entry exactly when no key of the fragment is already present in the
accumulator, and any failure is a duplicate-link-reference error naming an
already-present key and the current (second) file in merge order.  (The
original claim's "different entry" is corrected to "any entry": the code
checks only presence, so an identical entry under the same key also
fails.) -/
theorem claim_C2_amended : ∀ (fn : Str) (acc l : List (Str × LinkRef)),
    (l.map Prod.fst).Nodup →
    ((∀ k ∈ l.map Prod.fst, lookupLink acc k = none) → mergeLinks fn acc l = .ok (acc ++ l))
  ∧ (∀ e, mergeLinks fn acc l = .error e →
      ∃ k, e = .duplicateLink k fn ∧ k ∈ l.map Prod.fst ∧ (lookupLink acc k).isSome = true)
  ∧ ((∃ e, mergeLinks fn acc l = .error e) ↔
      ∃ k ∈ l.map Prod.fst, (lookupLink acc k).isSome = true) := by
  intro fn acc l hnd
  exact ⟨fun h => mergeLinks_ok fn l acc h hnd, mergeLinks_error fn l acc hnd,
    mergeLinks_error_iff fn l acc hnd⟩

theorem claim_C2_witness :
    mergeLinks "b.md".toList [("a".toList, ⟨"x".toList, []⟩)] [("k".toList, ⟨"u".toList, []⟩)] =
      .ok [("a".toList, ⟨"x".toList, []⟩), ("k".toList, ⟨"u".toList, []⟩)] :=
  (claim_C2_amended "b.md".toList [("a".toList, ⟨"x".toList, []⟩)]
    [("k".toList, ⟨"u".toList, []⟩)] (by decide)).1 (by decide)

/-- C2 counterexample: two fragments whose link maps hold the *identical*
entry under the key "k" still make Merge fail — the code checks only key
presence, not entry difference — and the error names the second file
("b.md"), not the first. -/
theorem claim_C2_cex :
    (Document.links ⟨[.paragraph ⟨1, 1⟩ ⟨⟨1, 1⟩, []⟩], [("k".toList, ⟨"u".toList, []⟩)]⟩ =
      Document.links ⟨[.paragraph ⟨1, 1⟩ ⟨⟨1, 1⟩, []⟩], [("k".toList, ⟨"u".toList, []⟩)]⟩)
  ∧ Merge
      [("a.md".toList, ⟨[.paragraph ⟨1, 1⟩ ⟨⟨1, 1⟩, []⟩], [("k".toList, ⟨"u".toList, []⟩)]⟩),
       ("b.md".toList, ⟨[.paragraph ⟨1, 1⟩ ⟨⟨1, 1⟩, []⟩], [("k".toList, ⟨"u".toList, []⟩)]⟩)] =
      .error (.duplicateLink "k".toList "b.md".toList) := by
  exact ⟨rfl, by decide⟩


/-- The file step of `Merge` with a non-empty accumulator and fragment,
written out explicitly. -/
theorem mergeFile_ok_eq (st : MergeState) (fn : Str) (d : Document)
    (hd : ¬d.blocks = []) (hst : ¬st.blocks = []) :
    mergeFile st fn d =
      match mergeLinks fn st.links d.links with
      | .error e => .error e
      | .ok links' => .ok ⟨accWithPkgHeading st (stdlibPackage fn) ++
          (d.blocks.map (fun b => addLines b
            ((lastBlock (accWithPkgHeading st (stdlibPackage fn))).pos.endLine + 2
              - (headBlock d.blocks).pos.startLine))).filter (fun b => !isEmptyBlock b),
          links', stdlibPackage fn⟩ := by
  unfold mergeFile
  rw [if_neg hd, if_neg hst]

/-- The file step of `Merge` with an empty accumulator and non-empty
fragment. -/
theorem mergeFile_empty_acc (st : MergeState) (fn : Str) (d : Document)
    (hd : ¬d.blocks = []) (hst : st.blocks = []) :
    mergeFile st fn d =
      match mergeLinks fn st.links d.links with
      | .error e => .error e
      | .ok links' => .ok ⟨d.blocks.filter (fun b => !isEmptyBlock b), links', st.prevPkg⟩ := by
  unfold mergeFile
  rw [if_neg hd, if_pos hst]


/-- C3: when Merge folds a non-empty fragment into a non-empty accumulator,
it computes delta = (accumulator's last block's end line + 2) − (fragment's
first block's start line) — where the accumulator may just have received the
synthetic package heading — adds delta to the start and end lines of every
top-level fragment block (the first block's position is used even if that
block is Empty), and appends every shifted block except Empty blocks, which
are dropped; a fragment with zero blocks is skipped entirely. -/
theorem claim_C3 : ∀ (st : MergeState) (fn : Str) (d : Document),
    (d.blocks = [] → mergeFile st fn d = .ok st)
  ∧ (d.blocks ≠ [] → st.blocks ≠ [] → ∀ st', mergeFile st fn d = .ok st' →
      st'.blocks = accWithPkgHeading st (stdlibPackage fn) ++
        (d.blocks.map (fun b => addLines b
          ((lastBlock (accWithPkgHeading st (stdlibPackage fn))).pos.endLine + 2
            - (headBlock d.blocks).pos.startLine))).filter (fun b => !isEmptyBlock b)) := by
  intro st fn d
  constructor
  · intro h
    unfold mergeFile
    rw [if_pos h]
  · intro hd hst st' hok
    rw [mergeFile_ok_eq st fn d hd hst] at hok
    rcases hml : mergeLinks fn st.links d.links with e | links'
    · rw [hml] at hok
      exact absurd hok (by simp)
    · rw [hml] at hok
      injection hok with hok'
      rw [← hok']

theorem claim_C3_witness :
    mergeFile ⟨[], [], []⟩ "a.md".toList ⟨[], []⟩ = .ok ⟨[], [], []⟩ :=
  (claim_C3 ⟨[], [], []⟩ "a.md".toList ⟨[], []⟩).1 rfl

/-- C4: during Merge with a non-empty accumulator, when the filename resolves
to a non-empty package pkg differing from the previously recorded package, a
synthetic level-4 heading whose text is a single link labelled pkg targeting
"/pkg/<pkg>/", positioned two lines after the accumulator's last block, is
appended before the fragment's blocks; the previous-package tracker becomes
pkg whether or not a heading was inserted, so of two consecutive files
mapping to the same pkg only the first gets the synthetic heading. -/
theorem claim_C4 : ∀ (st : MergeState) (fn : Str) (d : Document) (st' : MergeState),
    st.blocks ≠ [] → d.blocks ≠ [] → mergeFile st fn d = .ok st' →
    st'.prevPkg = stdlibPackage fn
  ∧ (stdlibPackage fn ≠ [] → stdlibPackage fn ≠ st.prevPkg →
      accWithPkgHeading st (stdlibPackage fn) = st.blocks ++
        [Block.heading
          ⟨(lastBlock st.blocks).pos.endLine + 2, (lastBlock st.blocks).pos.endLine + 2⟩ 4
          ⟨⟨(lastBlock st.blocks).pos.endLine + 2, (lastBlock st.blocks).pos.endLine + 2⟩,
            [.link [.plain (stdlibPackage fn)]
              ("/pkg/".toList ++ stdlibPackage fn ++ "/".toList)]⟩])
  ∧ ((stdlibPackage fn = [] ∨ stdlibPackage fn = st.prevPkg) →
      accWithPkgHeading st (stdlibPackage fn) = st.blocks)
  ∧ (∃ rest, st'.blocks = accWithPkgHeading st (stdlibPackage fn) ++ rest)
  ∧ (∀ (fn₂ : Str) (d₂ : Document) (st₂ : MergeState),
      stdlibPackage fn₂ = stdlibPackage fn → stdlibPackage fn ≠ [] →
      d₂.blocks ≠ [] → mergeFile st' fn₂ d₂ = .ok st₂ →
      accWithPkgHeading st' (stdlibPackage fn₂) = st'.blocks ∧
      ∃ rest₂, st₂.blocks = st'.blocks ++ rest₂) := by
  intro st fn d st' hst hd hok
  rw [mergeFile_ok_eq st fn d hd hst] at hok
  rcases hml : mergeLinks fn st.links d.links with e | links'
  · rw [hml] at hok
    exact absurd hok (by simp)
  rw [hml] at hok
  injection hok with hok'
  subst hok'
  refine ⟨rfl, ?_, ?_, ⟨_, rfl⟩, ?_⟩
  · intro hne hprev
    unfold accWithPkgHeading
    rw [if_pos ⟨hne, hprev⟩]
    rfl
  · intro hor
    unfold accWithPkgHeading
    rw [if_neg (fun hc => hor.elim (fun h => hc.1 h) (fun h => hc.2 h))]
  · intro fn₂ d₂ st₂ hpkg2 hne d₂ne hok₂
    have hsne : accWithPkgHeading st (stdlibPackage fn) ++
        (d.blocks.map (fun b => addLines b
          ((lastBlock (accWithPkgHeading st (stdlibPackage fn))).pos.endLine + 2
            - (headBlock d.blocks).pos.startLine))).filter (fun b => !isEmptyBlock b) ≠ [] := by
      intro hnil
      obtain ⟨h1, -⟩ := List.append_eq_nil.mp hnil
      unfold accWithPkgHeading at h1
      by_cases hcond : stdlibPackage fn ≠ [] ∧ stdlibPackage fn ≠ st.prevPkg
      · rw [if_pos hcond] at h1
        obtain ⟨-, h2⟩ := List.append_eq_nil.mp h1
        exact List.noConfusion h2
      · rw [if_neg hcond] at h1
        exact hst h1
    have hacc2 : accWithPkgHeading
        ⟨accWithPkgHeading st (stdlibPackage fn) ++
          (d.blocks.map (fun b => addLines b
            ((lastBlock (accWithPkgHeading st (stdlibPackage fn))).pos.endLine + 2
              - (headBlock d.blocks).pos.startLine))).filter (fun b => !isEmptyBlock b),
          links', stdlibPackage fn⟩ (stdlibPackage fn₂) =
        accWithPkgHeading st (stdlibPackage fn) ++
          (d.blocks.map (fun b => addLines b
            ((lastBlock (accWithPkgHeading st (stdlibPackage fn))).pos.endLine + 2
              - (headBlock d.blocks).pos.startLine))).filter (fun b => !isEmptyBlock b) := by
      unfold accWithPkgHeading
      rw [if_neg (fun hc => hc.2 hpkg2)]
    refine ⟨hacc2, ?_⟩
    rw [mergeFile_ok_eq _ fn₂ d₂ d₂ne hsne] at hok₂
    rcases hml₂ : mergeLinks fn₂ links' d₂.links with e₂ | links₂
    · rw [hml₂] at hok₂
      exact absurd hok₂ (by simp)
    · rw [hml₂] at hok₂
      injection hok₂ with hok₂'
      rw [← hok₂']
      rw [hacc2]
      exact ⟨_, rfl⟩

theorem claim_C4_witness :
    mergeFile ⟨[Block.paragraph ⟨1, 1⟩ ⟨⟨1, 1⟩, []⟩], [], []⟩ "stdlib/minor/net/x.md".toList
        ⟨[Block.paragraph ⟨1, 1⟩ ⟨⟨1, 1⟩, []⟩], []⟩ =
      .ok ⟨[Block.paragraph ⟨1, 1⟩ ⟨⟨1, 1⟩, []⟩,
            Block.heading ⟨3, 3⟩ 4 ⟨⟨3, 3⟩, [.link [.plain "net".toList] "/pkg/net/".toList]⟩,
            Block.paragraph ⟨5, 5⟩ ⟨⟨1, 1⟩, []⟩], [], "net".toList⟩ ∧
    MergeState.prevPkg ⟨[Block.paragraph ⟨1, 1⟩ ⟨⟨1, 1⟩, []⟩,
            Block.heading ⟨3, 3⟩ 4 ⟨⟨3, 3⟩, [.link [.plain "net".toList] "/pkg/net/".toList]⟩,
            Block.paragraph ⟨5, 5⟩ ⟨⟨1, 1⟩, []⟩], [], "net".toList⟩ =
      stdlibPackage "stdlib/minor/net/x.md".toList := by
  refine ⟨by decide, ?_⟩
  exact (claim_C4 ⟨[Block.paragraph ⟨1, 1⟩ ⟨⟨1, 1⟩, []⟩], [], []⟩ "stdlib/minor/net/x.md".toList
    ⟨[Block.paragraph ⟨1, 1⟩ ⟨⟨1, 1⟩, []⟩], []⟩ _ (by decide) (by decide) (by decide)).1


/-- C6 (amended): merging a tree containing a single .md file whose fragment
is non-empty, has no duplicate link keys and no empty sections reproduces the
fragment's non-Empty blocks with no line shift and its link map unchanged,
except that Empty blocks are dropped and, when both the remaining blocks and
the link map are non-empty, a trailing Empty block two lines below the last
block is appended; in particular the blocks are reproduced fully unchanged
when the fragment has no Empty blocks and an empty link map.  (The original
claim's "blocks unchanged" fails whenever the fragment has links or Empty
blocks.) -/
theorem claim_C6_amended : ∀ (fn : Str) (d : Document),
    strHasSuffix fn ".md".toList = true →
    d.blocks ≠ [] →
    (d.links.map Prod.fst).Nodup →
    removeEmptySections (d.blocks.filter (fun b => !isEmptyBlock b)) =
      d.blocks.filter (fun b => !isEmptyBlock b) →
    (Merge [(fn, d)] = .ok ⟨
      if d.blocks.filter (fun b => !isEmptyBlock b) ≠ [] ∧ d.links ≠ [] then
        d.blocks.filter (fun b => !isEmptyBlock b) ++
          [.empty ⟨(lastBlock (d.blocks.filter (fun b => !isEmptyBlock b))).pos.startLine + 2,
                   (lastBlock (d.blocks.filter (fun b => !isEmptyBlock b))).pos.endLine + 2⟩]
      else d.blocks.filter (fun b => !isEmptyBlock b), d.links⟩)
  ∧ (d.links = [] → (∀ b ∈ d.blocks, isEmptyBlock b = false) →
      Merge [(fn, d)] = .ok ⟨d.blocks, []⟩) := by
  intro fn d hsuf hd hnd hprune
  have hsort : sortedMarkdownFilenames [(fn, d)] = [fn] := by
    unfold sortedMarkdownFilenames
    have hsuf' : strHasSuffix fn ['.', 'm', 'd'] = true := hsuf
    simp [List.filter_cons, hsuf', List.insertionSort, List.orderedInsert]
  have hml : mergeLinks fn [] d.links = .ok d.links := by
    have := mergeLinks_ok fn d.links [] (fun k _ => rfl) hnd
    simpa using this
  have hmf : mergeFile ⟨[], [], []⟩ fn d =
      .ok ⟨d.blocks.filter (fun b => !isEmptyBlock b), d.links, []⟩ := by
    rw [mergeFile_empty_acc ⟨[], [], []⟩ fn d hd rfl]
    rw [hml]
  have hcore : Merge [(fn, d)] = mergeDocs [(fn, d)] := by
    unfold Merge
    rw [hsort]
    simp [lookupDoc]
  have hmain : Merge [(fn, d)] = .ok ⟨
      if d.blocks.filter (fun b => !isEmptyBlock b) ≠ [] ∧ d.links ≠ [] then
        d.blocks.filter (fun b => !isEmptyBlock b) ++
          [.empty ⟨(lastBlock (d.blocks.filter (fun b => !isEmptyBlock b))).pos.startLine + 2,
                   (lastBlock (d.blocks.filter (fun b => !isEmptyBlock b))).pos.endLine + 2⟩]
      else d.blocks.filter (fun b => !isEmptyBlock b), d.links⟩ := by
    rw [hcore]
    unfold mergeDocs
    simp only [mergeLoop, hmf, hprune]
    split <;> rfl
  refine ⟨hmain, ?_⟩
  intro hlinks hnoempty
  have hfil : d.blocks.filter (fun b => !isEmptyBlock b) = d.blocks :=
    List.filter_eq_self.mpr (fun b hb => by rw [hnoempty b hb]; rfl)
  rw [hmain, hlinks, hfil]
  simp

theorem claim_C6_witness :
    Merge [("a.md".toList,
        ⟨[.paragraph ⟨1, 1⟩ ⟨⟨1, 1⟩, [.plain "x.".toList]⟩],
         [("k".toList, ⟨"u".toList, []⟩)]⟩)] =
      .ok ⟨[.paragraph ⟨1, 1⟩ ⟨⟨1, 1⟩, [.plain "x.".toList]⟩, .empty ⟨3, 3⟩],
           [("k".toList, ⟨"u".toList, []⟩)]⟩ := by
  have h := (claim_C6_amended "a.md".toList
    ⟨[.paragraph ⟨1, 1⟩ ⟨⟨1, 1⟩, [.plain "x.".toList]⟩], [("k".toList, ⟨"u".toList, []⟩)]⟩
    (by decide) (by decide) (by decide) (by decide)).1
  rw [h]
  decide

/-- C6 counterexample: a single-file tree whose fragment is non-empty, has no
duplicate link keys and no empty sections, but whose merge output is *not*
the fragment unchanged — Merge appends a trailing Empty block because the
link map is non-empty. -/
theorem claim_C6_cex :
    Document.blocks ⟨[.paragraph ⟨1, 1⟩ ⟨⟨1, 1⟩, [.plain "x.".toList]⟩],
        [("k".toList, ⟨"u".toList, []⟩)]⟩ ≠ [] ∧
    ((Document.links ⟨[.paragraph ⟨1, 1⟩ ⟨⟨1, 1⟩, [.plain "x.".toList]⟩],
        [("k".toList, ⟨"u".toList, []⟩)]⟩).map Prod.fst).Nodup ∧
    removeEmptySections (Document.blocks ⟨[.paragraph ⟨1, 1⟩ ⟨⟨1, 1⟩, [.plain "x.".toList]⟩],
        [("k".toList, ⟨"u".toList, []⟩)]⟩) =
      Document.blocks ⟨[.paragraph ⟨1, 1⟩ ⟨⟨1, 1⟩, [.plain "x.".toList]⟩],
        [("k".toList, ⟨"u".toList, []⟩)]⟩ ∧
    Merge [("a.md".toList, ⟨[.paragraph ⟨1, 1⟩ ⟨⟨1, 1⟩, [.plain "x.".toList]⟩],
        [("k".toList, ⟨"u".toList, []⟩)]⟩)] ≠
      .ok ⟨[.paragraph ⟨1, 1⟩ ⟨⟨1, 1⟩, [.plain "x.".toList]⟩],
        [("k".toList, ⟨"u".toList, []⟩)]⟩ := by
  refine ⟨by decide, by decide, by decide, by decide⟩


/-! ### CheckFragment section scanning (C7) -/

/-- Modelled from the spec (amended form): whether a section body — the run
of non-heading blocks following a heading — counts as having content.  The
code's loop overwrites its `found` flag on every non-heading block, so only
the LAST block of the body decides. -/
def sectionHasContent (body : List Block) : Bool :=
  match body.getLast? with
  | some b => hasContent (text b)
  | none => false

/-- Modelled from the spec (amended form): walk the blocks after the leading
heading section by section; a section's content is decided by its last
non-heading block, scanning stops at the first heading reached before content
was found, and the text of the heading whose section lacked content is
returned. -/
def specWalk (cur : Block) (tl : List Block) : Option Str :=
  if !sectionHasContent (tl.takeWhile (fun b => !isHeading b)) then some (text cur)
  else
    match hr : tl.dropWhile (fun b => !isHeading b) with
    | [] => none
    | h₂ :: rest₂ => specWalk h₂ rest₂
termination_by tl.length
decreasing_by
  have h1 : (tl.dropWhile (fun b => !isHeading b)).length ≤ tl.length :=
    (List.dropWhile_sublist _).length_le
  rw [hr] at h1
  simp only [List.length_cons] at h1
  omega

/-- The value of the `found` flag after the loop scans `body` starting from
flag value `f`. -/
def lastFound (f : Bool) (body : List Block) : Bool :=
  match body.getLast? with
  | none => f
  | some b => hasContent (text b)

theorem lastFound_cons (f : Bool) (b : Block) (bs : List Block) :
    lastFound f (b :: bs) = lastFound (hasContent (text b)) bs := by
  cases bs with
  | nil => rfl
  | cons c cs =>
    unfold lastFound
    rw [List.getLast?_cons_cons]
    rcases h : (c :: cs).getLast? with - | x
    · exact absurd h (by simp)
    · rfl

theorem scanSections_append (body : List Block) :
    (∀ b ∈ body, isHeading b = false) → ∀ (cur : Block) (f : Bool) (rest : List Block),
    scanSections cur f (body ++ rest) = scanSections cur (lastFound f body) rest := by
  induction body with
  | nil => intro _ cur f rest; rfl
  | cons b bs ih =>
    intro hb cur f rest
    have hbh : isHeading b = false := hb b (by simp)
    rw [List.cons_append]
    show (if isHeading b then _ else _) = _
    rw [if_neg (by simp [hbh])]
    rw [ih (fun x hx => hb x (by simp [hx])) cur (hasContent (text b)) rest]
    rw [lastFound_cons]

theorem scanSections_eq_specWalk :
    ∀ (n : Nat) (tl : List Block), tl.length ≤ n → ∀ cur : Block,
    scanSections cur false tl = specWalk cur tl := by
  intro n
  induction n with
  | zero =>
    intro tl hlen cur
    have : tl = [] := List.eq_nil_of_length_eq_zero (Nat.le_zero.mp hlen)
    subst this
    rw [specWalk]
    rfl
  | succ m ih =>
    intro tl hlen cur
    have hsplit := List.takeWhile_append_dropWhile (fun b => !isHeading b) tl
    have hb : ∀ b ∈ tl.takeWhile (fun b => !isHeading b), isHeading b = false := by
      intro b hbmem
      have := List.mem_takeWhile_imp hbmem
      simpa using this
    have hstep : scanSections cur false tl =
        scanSections cur (lastFound false (tl.takeWhile (fun b => !isHeading b)))
          (tl.dropWhile (fun b => !isHeading b)) := by
      conv_lhs => rw [← hsplit]
      exact scanSections_append _ hb cur false _
    have hsec : lastFound false (tl.takeWhile (fun b => !isHeading b)) =
        sectionHasContent (tl.takeWhile (fun b => !isHeading b)) := by
      unfold lastFound sectionHasContent
      rcases (tl.takeWhile (fun b => !isHeading b)).getLast? with - | b <;> rfl
    rw [specWalk]
    by_cases hfound : sectionHasContent (tl.takeWhile (fun b => !isHeading b)) = true
    · rw [if_neg (by simp [hfound])]
      rcases hr : tl.dropWhile (fun b => !isHeading b) with - | ⟨h₂, rest₂⟩
      · rw [hstep, hsec, hfound, hr]
        rfl
      · have hh₂ : isHeading h₂ = true := by
          have := List.head?_dropWhile_not (fun b => !isHeading b) tl
          rw [hr] at this
          simpa using this
        have hlen₂ : rest₂.length ≤ m := by
          have h1 : (tl.dropWhile (fun b => !isHeading b)).length ≤ tl.length :=
            (List.dropWhile_sublist _).length_le
          rw [hr] at h1
          simp only [List.length_cons] at h1
          omega
        rw [hstep, hsec, hfound, hr]
        show (if isHeading h₂ then _ else _) = _
        rw [if_pos hh₂]
        simp only [Bool.not_true, Bool.false_eq_true, if_false]
        exact ih rest₂ hlen₂ h₂
    · simp only [Bool.not_eq_true] at hfound
      rw [if_pos (by simp [hfound])]
      rw [hstep, hsec, hfound]
      rcases hr : tl.dropWhile (fun b => !isHeading b) with - | ⟨h₂, rest₂⟩
      · rfl
      · have hh₂ : isHeading h₂ = true := by
          have := List.head?_dropWhile_not (fun b => !isHeading b) tl
          rw [hr] at this
          simpa using this
        show (if isHeading h₂ then _ else _) = _
        rw [if_pos hh₂]
        rfl

/-- C7 (amended): CheckFragment, after accepting the leading heading, scans
the remaining blocks as sections in which content is found when the LAST
non-heading block of the section (the `found` flag is overwritten by every
non-heading block) has extracted text containing "TODO" or one of '.', '?',
'!'; scanning advances to a new heading only when the previous section's
content was found, stops at the first heading reached before content was
found, and validation fails naming the text of the last heading whose
section had no qualifying content (or the final heading if the document ends
without qualifying content). -/
theorem claim_C7_amended : ∀ (d : Document) (b : Block) (rest : List Block),
    d.blocks = b :: rest → isHeading b = true →
    ¬trimSpace (text b) = [] → headingTextMustMatch (text b) = true →
    checkFragment d =
      match specWalk b rest with
      | some h => some (.incompleteSection h)
      | none => none := by
  intro d b rest hblocks hh hne hm
  unfold checkFragment
  rw [hblocks]
  dsimp only
  rw [if_neg (by simp [hh])]
  rw [if_neg (by simpa using hne)]
  rw [if_neg (by simp [hm])]
  rw [scanSections_eq_specWalk rest.length rest (Nat.le_refl _) b]

theorem claim_C7_witness :
    checkFragment ⟨[.heading ⟨1, 1⟩ 1 ⟨⟨1, 1⟩, [.plain "T".toList]⟩,
        .paragraph ⟨2, 2⟩ ⟨⟨2, 2⟩, [.plain "ok.".toList]⟩], []⟩ = none := by
  have h := claim_C7_amended
    ⟨[.heading ⟨1, 1⟩ 1 ⟨⟨1, 1⟩, [.plain "T".toList]⟩,
      .paragraph ⟨2, 2⟩ ⟨⟨2, 2⟩, [.plain "ok.".toList]⟩], []⟩
    (.heading ⟨1, 1⟩ 1 ⟨⟨1, 1⟩, [.plain "T".toList]⟩)
    [.paragraph ⟨2, 2⟩ ⟨⟨2, 2⟩, [.plain "ok.".toList]⟩]
    rfl (by decide) (by decide) (by decide)
  rw [h, specWalk]
  decide

/-- C7 counterexample: a fragment whose first section contains a block with a
sentence ("x.") followed by a block without one ("y"); the claim says content
is found because *some* non-heading block qualifies, but the code's `found`
flag is overwritten by each non-heading block, so CheckFragment reports an
incomplete section. -/
theorem claim_C7_cex :
    checkFragment ⟨[.heading ⟨1, 1⟩ 1 ⟨⟨1, 1⟩, [.plain "T".toList]⟩,
        .paragraph ⟨2, 2⟩ ⟨⟨2, 2⟩, [.plain "x.".toList]⟩,
        .paragraph ⟨4, 4⟩ ⟨⟨4, 4⟩, [.plain "y".toList]⟩], []⟩ =
      some (.incompleteSection "T".toList)
  ∧ isHeading (.paragraph ⟨2, 2⟩ ⟨⟨2, 2⟩, [.plain "x.".toList]⟩) = false
  ∧ hasContent (text (.paragraph ⟨2, 2⟩ ⟨⟨2, 2⟩, [.plain "x.".toList]⟩)) = true
  ∧ (Block.paragraph ⟨2, 2⟩ ⟨⟨2, 2⟩, [.plain "x.".toList]⟩) ∈
      (Document.blocks ⟨[.heading ⟨1, 1⟩ 1 ⟨⟨1, 1⟩, [.plain "T".toList]⟩,
        .paragraph ⟨2, 2⟩ ⟨⟨2, 2⟩, [.plain "x.".toList]⟩,
        .paragraph ⟨4, 4⟩ ⟨⟨4, 4⟩, [.plain "y".toList]⟩], []⟩).tail := by
  refine ⟨by decide, rfl, by decide, by decide⟩


/-! ### Pruning facts (C8) -/

/-- The level of a heading block (0 for other blocks). -/
def headingLevel : Block → Int
  | .heading _ l _ => l
  | _ => 0

/-- The order left behind by the pruner between adjacent blocks: a heading is
followed by another heading only if the second has a strictly greater
level. -/
def headingOrder (a b : Block) : Prop :=
  isHeading a = true → isHeading b = true → headingLevel a < headingLevel b

theorem isHeading_addLines (b : Block) (n : Int) : isHeading (addLines b n) = isHeading b := by
  cases b <;> rfl

theorem headingLevel_addLines (b : Block) (n : Int) :
    headingLevel (addLines b n) = headingLevel b := by
  cases b <;> rfl

theorem addLines_zero (b : Block) : addLines b 0 = b := by
  cases b <;> simp [addLines]

/-- `rem` keeps the stack `Chain'`-ordered and leaves on top either a
non-heading or a heading of level < L. -/
theorem remHeadings_chain (L : Int) :
    ∀ (res : List Block) (delta : Int), List.Chain' (flip headingOrder) res →
    List.Chain' (flip headingOrder) (remHeadings L res delta).1 ∧
      (∀ b ∈ (remHeadings L res delta).1.head?, isHeading b = true → headingLevel b < L) := by
  intro res
  induction res with
  | nil => intro delta _; exact ⟨List.chain'_nil, by simp [remHeadings]⟩
  | cons b rest ih =>
    intro delta hc
    match b with
    | .heading p lvl t =>
      by_cases hL : L ≤ lvl
      · have := ih (delta + (p.endLine - p.startLine + 2)) hc.tail
        simpa [remHeadings, hL] using this
      · refine ⟨by simpa [remHeadings, hL] using hc, ?_⟩
        intro x hx _
        simp only [remHeadings, if_neg hL, List.head?_cons, Option.mem_def,
          Option.some.injEq] at hx
        subst hx
        simp only [headingLevel]
        omega
    | .textblk t => exact ⟨by simpa [remHeadings] using hc, by simp [remHeadings, isHeading]⟩
    | .codeBlock p t => exact ⟨by simpa [remHeadings] using hc, by simp [remHeadings, isHeading]⟩
    | .htmlBlock p t => exact ⟨by simpa [remHeadings] using hc, by simp [remHeadings, isHeading]⟩
    | .list p t => exact ⟨by simpa [remHeadings] using hc, by simp [remHeadings, isHeading]⟩
    | .item p t => exact ⟨by simpa [remHeadings] using hc, by simp [remHeadings, isHeading]⟩
    | .empty p => exact ⟨by simpa [remHeadings] using hc, by simp [remHeadings, isHeading]⟩
    | .paragraph p t => exact ⟨by simpa [remHeadings] using hc, by simp [remHeadings, isHeading]⟩
    | .quote p t => exact ⟨by simpa [remHeadings] using hc, by simp [remHeadings, isHeading]⟩

/-- The pruner's main loop keeps the (reversed) result `Chain'`-ordered. -/
theorem pruneLoop_chain :
    ∀ (bs res : List Block) (delta : Int), List.Chain' (flip headingOrder) res →
    List.Chain' (flip headingOrder) (pruneLoop bs res delta).1 := by
  intro bs
  induction bs with
  | nil => intro res delta hc; exact hc
  | cons b bs' ih =>
    intro res delta hc
    match b with
    | .heading p lvl t =>
      obtain ⟨h1, h2⟩ := remHeadings_chain lvl res delta hc
      show List.Chain' (flip headingOrder)
        (pruneLoop bs' (addLines (Block.heading p lvl t) (-(remHeadings lvl res delta).2) ::
          (remHeadings lvl res delta).1) (remHeadings lvl res delta).2).1
      apply ih
      rw [List.chain'_cons']
      refine ⟨?_, h1⟩
      intro y hy
      intro hyh _
      have := h2 y hy hyh
      simpa [headingLevel_addLines, headingLevel] using this
    | .textblk t =>
      apply ih
      rw [List.chain'_cons']
      exact ⟨fun y hy hyh hbh => by rw [isHeading_addLines] at hbh; simp [isHeading] at hbh, hc⟩
    | .codeBlock p t =>
      apply ih
      rw [List.chain'_cons']
      exact ⟨fun y hy hyh hbh => by rw [isHeading_addLines] at hbh; simp [isHeading] at hbh, hc⟩
    | .htmlBlock p t =>
      apply ih
      rw [List.chain'_cons']
      exact ⟨fun y hy hyh hbh => by rw [isHeading_addLines] at hbh; simp [isHeading] at hbh, hc⟩
    | .list p t =>
      apply ih
      rw [List.chain'_cons']
      exact ⟨fun y hy hyh hbh => by rw [isHeading_addLines] at hbh; simp [isHeading] at hbh, hc⟩
    | .item p t =>
      apply ih
      rw [List.chain'_cons']
      exact ⟨fun y hy hyh hbh => by rw [isHeading_addLines] at hbh; simp [isHeading] at hbh, hc⟩
    | .empty p =>
      apply ih
      rw [List.chain'_cons']
      exact ⟨fun y hy hyh hbh => by rw [isHeading_addLines] at hbh; simp [isHeading] at hbh, hc⟩
    | .paragraph p t =>
      apply ih
      rw [List.chain'_cons']
      exact ⟨fun y hy hyh hbh => by rw [isHeading_addLines] at hbh; simp [isHeading] at hbh, hc⟩
    | .quote p t =>
      apply ih
      rw [List.chain'_cons']
      exact ⟨fun y hy hyh hbh => by rw [isHeading_addLines] at hbh; simp [isHeading] at hbh, hc⟩

/-- After pruning, adjacent blocks are `headingOrder`-related and no trailing
heading of level ≥ 1 survives. -/
theorem prune_outOK (bs : List Block) :
    List.Chain' headingOrder (removeEmptySections bs) ∧
    (∀ b ∈ (removeEmptySections bs).getLast?, isHeading b = true → headingLevel b < 1) := by
  unfold removeEmptySections
  obtain ⟨h1, h2⟩ := remHeadings_chain 1 (pruneLoop bs [] 0).1 (pruneLoop bs [] 0).2
    (pruneLoop_chain bs [] 0 List.chain'_nil)
  constructor
  · exact List.chain'_reverse.mpr h1
  · intro b hb hh
    rw [List.getLast?_reverse] at hb
    exact h2 b hb hh

/-- `rem` does nothing when the top of the stack is not a heading of level
≥ L. -/
theorem remHeadings_noop (L : Int) (res : List Block) (delta : Int)
    (h : ∀ b ∈ res.head?, isHeading b = true → headingLevel b < L) :
    remHeadings L res delta = (res, delta) := by
  cases res with
  | nil => rfl
  | cons b rest =>
    match b with
    | .heading p lvl t =>
      have hlt : headingLevel (Block.heading p lvl t) < L := h _ (by simp) rfl
      simp only [headingLevel] at hlt
      have hnle : ¬L ≤ lvl := by omega
      simp [remHeadings, hnle]
    | .textblk t => rfl
    | .codeBlock p t => rfl
    | .htmlBlock p t => rfl
    | .list p t => rfl
    | .item p t => rfl
    | .empty p => rfl
    | .paragraph p t => rfl
    | .quote p t => rfl

/-- Feeding an already-`headingOrder`-chained sequence through the pruner's
loop with delta 0 only reverses it onto the stack. -/
theorem pruneLoop_noop :
    ∀ (l res : List Block), List.Chain' headingOrder l →
    (∀ b ∈ l.head?, ∀ x ∈ res.head?, headingOrder x b) →
    pruneLoop l res 0 = (l.reverse ++ res, 0) := by
  intro l
  induction l with
  | nil => intro res _ _; simp [pruneLoop]
  | cons b l' ih =>
    intro res hc hhead
    have hc' : List.Chain' headingOrder l' := hc.tail
    have hnext : ∀ c ∈ l'.head?, ∀ x ∈ (b :: res).head?, headingOrder x c := by
      intro c hcmem x hx
      simp only [List.head?_cons, Option.mem_def, Option.some.injEq] at hx
      subst hx
      exact (List.chain'_cons'.mp hc).1 c hcmem
    match b with
    | .heading p lvl t =>
      have hrem : remHeadings lvl res 0 = (res, 0) := by
        apply remHeadings_noop
        intro x hx hxh
        have := hhead (Block.heading p lvl t) (by simp) x hx hxh rfl
        simpa [headingLevel] using this
      show pruneLoop l' (addLines (Block.heading p lvl t) (-(remHeadings lvl res 0).2) ::
        (remHeadings lvl res 0).1) (remHeadings lvl res 0).2 = _
      rw [hrem]
      rw [show (-(0 : Int)) = 0 from rfl, addLines_zero]
      rw [ih (Block.heading p lvl t :: res) hc' hnext]
      simp
    | .textblk t =>
      show pruneLoop l' (addLines (Block.textblk t) (-0) :: res) 0 = _
      rw [show (-(0 : Int)) = 0 from rfl, addLines_zero]
      rw [ih (Block.textblk t :: res) hc' hnext]
      simp
    | .codeBlock p t =>
      show pruneLoop l' (addLines (Block.codeBlock p t) (-0) :: res) 0 = _
      rw [show (-(0 : Int)) = 0 from rfl, addLines_zero]
      rw [ih (Block.codeBlock p t :: res) hc' hnext]
      simp
    | .htmlBlock p t =>
      show pruneLoop l' (addLines (Block.htmlBlock p t) (-0) :: res) 0 = _
      rw [show (-(0 : Int)) = 0 from rfl, addLines_zero]
      rw [ih (Block.htmlBlock p t :: res) hc' hnext]
      simp
    | .list p t =>
      show pruneLoop l' (addLines (Block.list p t) (-0) :: res) 0 = _
      rw [show (-(0 : Int)) = 0 from rfl, addLines_zero]
      rw [ih (Block.list p t :: res) hc' hnext]
      simp
    | .item p t =>
      show pruneLoop l' (addLines (Block.item p t) (-0) :: res) 0 = _
      rw [show (-(0 : Int)) = 0 from rfl, addLines_zero]
      rw [ih (Block.item p t :: res) hc' hnext]
      simp
    | .empty p =>
      show pruneLoop l' (addLines (Block.empty p) (-0) :: res) 0 = _
      rw [show (-(0 : Int)) = 0 from rfl, addLines_zero]
      rw [ih (Block.empty p :: res) hc' hnext]
      simp
    | .paragraph p t =>
      show pruneLoop l' (addLines (Block.paragraph p t) (-0) :: res) 0 = _
      rw [show (-(0 : Int)) = 0 from rfl, addLines_zero]
      rw [ih (Block.paragraph p t :: res) hc' hnext]
      simp
    | .quote p t =>
      show pruneLoop l' (addLines (Block.quote p t) (-0) :: res) 0 = _
      rw [show (-(0 : Int)) = 0 from rfl, addLines_zero]
      rw [ih (Block.quote p t :: res) hc' hnext]
      simp

/-- C8: removeEmptySections is idempotent — pruning an already pruned block
sequence changes nothing, line positions included. -/
theorem claim_C8 : ∀ bs : List Block,
    removeEmptySections (removeEmptySections bs) = removeEmptySections bs := by
  intro bs
  obtain ⟨hchain, hlast⟩ := prune_outOK bs
  have h0 : removeEmptySections (removeEmptySections bs) =
      (remHeadings 1 (pruneLoop (removeEmptySections bs) [] 0).1
        (pruneLoop (removeEmptySections bs) [] 0).2).1.reverse := rfl
  have h1 : (pruneLoop (removeEmptySections bs) [] 0).1 = (removeEmptySections bs).reverse := by
    rw [pruneLoop_noop (removeEmptySections bs) [] hchain (by simp)]
    simp
  have h2 : (pruneLoop (removeEmptySections bs) [] 0).2 = 0 := by
    rw [pruneLoop_noop (removeEmptySections bs) [] hchain (by simp)]
  rw [h0, h1, h2]
  rw [remHeadings_noop 1 (removeEmptySections bs).reverse 0 ?hlastrev]
  case hlastrev =>
    intro b hb
    rw [List.head?_reverse] at hb
    exact hlast b hb
  simp


/-! ### The pruner only discards headings (C10) -/

/-- The subsequence of non-Heading blocks of a block sequence. -/
def nonHeads (bs : List Block) : List Block :=
  bs.filter (fun b => !isHeading b)

theorem nonHeads_cons_heading (b : Block) (bs : List Block) (h : isHeading b = true) :
    nonHeads (b :: bs) = nonHeads bs := by
  simp [nonHeads, List.filter_cons, h]

theorem nonHeads_cons_of_not (b : Block) (bs : List Block) (h : isHeading b = false) :
    nonHeads (b :: bs) = b :: nonHeads bs := by
  simp [nonHeads, List.filter_cons, h]

/-- A block's heading span-validity: only headings are constrained. -/
def headSpanOK (b : Block) : Prop :=
  isHeading b = true → b.pos.startLine ≤ b.pos.endLine

theorem headSpanOK_addLines (b : Block) (n : Int) (h : headSpanOK b) :
    headSpanOK (addLines b n) := by
  intro hh
  rw [isHeading_addLines] at hh
  have := h hh
  cases b <;> simp [addLines, Block.pos] at this ⊢ <;> omega

theorem isHeading_iff (b : Block) :
    isHeading b = true ↔ ∃ p lvl t, b = .heading p lvl t := by
  cases b <;> simp [isHeading]

/-- Stepping the pruner's loop over a non-heading block. -/
theorem pruneLoop_cons_not_heading (b : Block) (h : isHeading b = false)
    (bs res : List Block) (delta : Int) :
    pruneLoop (b :: bs) res delta = pruneLoop bs (addLines b (-delta) :: res) delta := by
  match b with
  | .heading p lvl t => simp [isHeading] at h
  | .textblk t => rfl
  | .codeBlock p t => rfl
  | .htmlBlock p t => rfl
  | .list p t => rfl
  | .item p t => rfl
  | .empty p => rfl
  | .paragraph p t => rfl
  | .quote p t => rfl

/-- `rem` drops only headings, never decreases delta (heading spans being
valid), and keeps span-validity of the stack. -/
theorem remHeadings_nonHeads (L : Int) :
    ∀ (res : List Block) (delta : Int), (∀ b ∈ res, headSpanOK b) →
    nonHeads (remHeadings L res delta).1 = nonHeads res ∧
    delta ≤ (remHeadings L res delta).2 ∧
    (∀ b ∈ (remHeadings L res delta).1, headSpanOK b) := by
  intro res
  induction res with
  | nil => intro delta h; exact ⟨rfl, le_refl _, h⟩
  | cons b rest ih =>
    intro delta hok
    match b with
    | .heading p lvl t =>
      by_cases hL : L ≤ lvl
      · have hspan : p.startLine ≤ p.endLine :=
          hok (Block.heading p lvl t) (by simp) rfl
        obtain ⟨e1, e2, e3⟩ := ih (delta + (p.endLine - p.startLine + 2))
          (fun x hx => hok x (by simp [hx]))
        refine ⟨?_, ?_, ?_⟩
        · rw [show (remHeadings L (Block.heading p lvl t :: rest) delta) =
            remHeadings L rest (delta + (p.endLine - p.startLine + 2)) by
              simp [remHeadings, hL]]
          rw [e1, nonHeads_cons_heading (Block.heading p lvl t) rest rfl]
        · rw [show (remHeadings L (Block.heading p lvl t :: rest) delta) =
            remHeadings L rest (delta + (p.endLine - p.startLine + 2)) by
              simp [remHeadings, hL]]
          omega
        · rw [show (remHeadings L (Block.heading p lvl t :: rest) delta) =
            remHeadings L rest (delta + (p.endLine - p.startLine + 2)) by
              simp [remHeadings, hL]]
          exact e3
      · exact ⟨by simp [remHeadings, hL], by simp [remHeadings, hL], by
          simpa [remHeadings, hL] using hok⟩
    | .textblk t => exact ⟨rfl, le_refl _, hok⟩
    | .codeBlock p t => exact ⟨rfl, le_refl _, hok⟩
    | .htmlBlock p t => exact ⟨rfl, le_refl _, hok⟩
    | .list p t => exact ⟨rfl, le_refl _, hok⟩
    | .item p t => exact ⟨rfl, le_refl _, hok⟩
    | .empty p => exact ⟨rfl, le_refl _, hok⟩
    | .paragraph p t => exact ⟨rfl, le_refl _, hok⟩
    | .quote p t => exact ⟨rfl, le_refl _, hok⟩

/-- The pruner's loop preserves heading span-validity. -/
theorem pruneLoop_headSpanOK :
    ∀ (bs res : List Block) (delta : Int),
    (∀ b ∈ bs, headSpanOK b) → (∀ b ∈ res, headSpanOK b) →
    ∀ b ∈ (pruneLoop bs res delta).1, headSpanOK b := by
  intro bs
  induction bs with
  | nil => intro res delta _ hres; exact hres
  | cons b bs' ih =>
    intro res delta hbs hres
    have hbs' : ∀ x ∈ bs', headSpanOK x := fun x hx => hbs x (by simp [hx])
    by_cases hb : isHeading b = true
    · obtain ⟨p, lvl, t, rfl⟩ := (isHeading_iff b).mp hb
      obtain ⟨-, -, e3⟩ := remHeadings_nonHeads lvl res delta hres
      show ∀ x ∈ (pruneLoop bs' (addLines (Block.heading p lvl t)
        (-(remHeadings lvl res delta).2) :: (remHeadings lvl res delta).1)
          (remHeadings lvl res delta).2).1, headSpanOK x
      apply ih
      · exact hbs'
      · intro x hx
        rcases List.mem_cons.mp hx with rfl | hx'
        · exact headSpanOK_addLines _ _ (hbs _ (by simp))
        · exact e3 x hx'
    · simp only [Bool.not_eq_true] at hb
      rw [pruneLoop_cons_not_heading b hb]
      apply ih
      · exact hbs'
      · intro x hx
        rcases List.mem_cons.mp hx with rfl | hx'
        · exact headSpanOK_addLines _ _ (hbs _ (by simp))
        · exact hres x hx'

/-- Through the pruner's loop, the non-heading input blocks are appended
(reversed, each shifted down by the delta current at its turn) to the stack,
and those deltas are nondecreasing from the incoming delta. -/
theorem pruneLoop_nonHeads :
    ∀ (bs res : List Block) (delta : Int),
    (∀ b ∈ bs, headSpanOK b) → (∀ b ∈ res, headSpanOK b) →
    ∃ ds : List Int,
      ds.length = (nonHeads bs).length ∧
      List.Chain' (· ≤ ·) (delta :: ds) ∧
      (∀ d ∈ ds, delta ≤ d) ∧
      nonHeads (pruneLoop bs res delta).1 =
        (List.zipWith (fun b d => addLines b (-d)) (nonHeads bs) ds).reverse ++
          nonHeads res := by
  intro bs
  induction bs with
  | nil =>
    intro res delta _ _
    exact ⟨[], by simp [nonHeads], by simp, by simp, by simp [pruneLoop, nonHeads]⟩
  | cons b bs' ih =>
    intro res delta hbs hres
    have hbs' : ∀ x ∈ bs', headSpanOK x := fun x hx => hbs x (by simp [hx])
    by_cases hb : isHeading b = true
    · obtain ⟨p, lvl, t, rfl⟩ := (isHeading_iff b).mp hb
      obtain ⟨e1, e2, e3⟩ := remHeadings_nonHeads lvl res delta hres
      have hres' : ∀ x ∈ addLines (Block.heading p lvl t) (-(remHeadings lvl res delta).2) ::
          (remHeadings lvl res delta).1, headSpanOK x := by
        intro x hx
        rcases List.mem_cons.mp hx with rfl | hx'
        · exact headSpanOK_addLines _ _ (hbs _ (by simp))
        · exact e3 x hx'
      obtain ⟨ds, hl, hchain, hlb, heq⟩ :=
        ih (addLines (Block.heading p lvl t) (-(remHeadings lvl res delta).2) ::
          (remHeadings lvl res delta).1) (remHeadings lvl res delta).2 hbs' hres'
      refine ⟨ds, ?_, ?_, ?_, ?_⟩
      · rw [nonHeads_cons_heading (Block.heading p lvl t) bs' rfl]; exact hl
      · rw [List.chain'_cons'] at hchain ⊢
        exact ⟨fun y hy => le_trans e2 (hchain.1 y hy), hchain.2⟩
      · intro d hd
        exact le_trans e2 (hlb d hd)
      · show nonHeads (pruneLoop bs' (addLines (Block.heading p lvl t)
          (-(remHeadings lvl res delta).2) :: (remHeadings lvl res delta).1)
            (remHeadings lvl res delta).2).1 = _
        rw [heq, nonHeads_cons_heading
            (addLines (Block.heading p lvl t) (-(remHeadings lvl res delta).2))
            (remHeadings lvl res delta).1 (by rw [isHeading_addLines]; rfl), e1,
          nonHeads_cons_heading (Block.heading p lvl t) bs' rfl]
    · simp only [Bool.not_eq_true] at hb
      have hres' : ∀ x ∈ addLines b (-delta) :: res, headSpanOK x := by
        intro x hx
        rcases List.mem_cons.mp hx with rfl | hx'
        · exact headSpanOK_addLines _ _ (hbs _ (by simp))
        · exact hres x hx'
      obtain ⟨ds, hl, hchain, hlb, heq⟩ := ih (addLines b (-delta) :: res) delta hbs' hres'
      refine ⟨delta :: ds, ?_, ?_, ?_, ?_⟩
      · rw [nonHeads_cons_of_not _ _ hb]
        simp [hl]
      · rw [List.chain'_cons']
        refine ⟨?_, hchain⟩
        intro y hy
        simp only [List.head?_cons, Option.mem_def, Option.some.injEq] at hy
        subst hy
        exact le_refl _
      · intro d hd
        rcases List.mem_cons.mp hd with rfl | hd'
        · exact le_refl _
        · exact hlb d hd'
      · rw [pruneLoop_cons_not_heading b hb, heq,
          nonHeads_cons_of_not _ _ (by rw [isHeading_addLines]; exact hb),
          nonHeads_cons_of_not _ _ hb]
        simp [List.append_assoc]

/-- C10 (amended): removeEmptySections only ever discards Heading blocks —
whenever every Heading of the input carries a valid span (startLine ≤
endLine, as parser-produced positions do), the subsequence of non-Heading
blocks of the output is exactly the subsequence of non-Heading blocks of the
input, in order, each shifted down by a cumulative (non-negative and
nondecreasing) delta. -/
theorem claim_C10_amended : ∀ bs : List Block,
    (∀ b ∈ bs, isHeading b = true → b.pos.startLine ≤ b.pos.endLine) →
    ∃ ds : List Int,
      ds.length = (nonHeads bs).length ∧
      (∀ d ∈ ds, 0 ≤ d) ∧
      List.Chain' (· ≤ ·) ds ∧
      nonHeads (removeEmptySections bs) =
        List.zipWith (fun b d => addLines b (-d)) (nonHeads bs) ds := by
  intro bs hok
  obtain ⟨ds, hl, hchain, hlb, heq⟩ := pruneLoop_nonHeads bs [] 0 hok (by simp)
  obtain ⟨f1, -, -⟩ := remHeadings_nonHeads 1 (pruneLoop bs [] 0).1 (pruneLoop bs [] 0).2
    (pruneLoop_headSpanOK bs [] 0 hok (by simp))
  refine ⟨ds, hl, hlb, (List.chain'_cons'.mp hchain).2, ?_⟩
  have h0 : removeEmptySections bs =
      (remHeadings 1 (pruneLoop bs [] 0).1 (pruneLoop bs [] 0).2).1.reverse := rfl
  rw [h0]
  show nonHeads _ = _
  unfold nonHeads
  rw [List.filter_reverse]
  show (nonHeads (remHeadings 1 (pruneLoop bs [] 0).1 (pruneLoop bs [] 0).2).1).reverse = _
  rw [f1, heq]
  simp [nonHeads]


theorem claim_C10_witness :
    (∀ b ∈ [Block.heading ⟨1, 1⟩ 1 ⟨⟨1, 1⟩, []⟩, Block.heading ⟨3, 3⟩ 1 ⟨⟨3, 3⟩, []⟩,
        Block.paragraph ⟨5, 5⟩ ⟨⟨5, 5⟩, []⟩],
      isHeading b = true → b.pos.startLine ≤ b.pos.endLine) ∧
    ∃ ds : List Int,
      ds.length = (nonHeads [Block.heading ⟨1, 1⟩ 1 ⟨⟨1, 1⟩, []⟩,
        Block.heading ⟨3, 3⟩ 1 ⟨⟨3, 3⟩, []⟩, Block.paragraph ⟨5, 5⟩ ⟨⟨5, 5⟩, []⟩]).length ∧
      (∀ d ∈ ds, 0 ≤ d) ∧
      List.Chain' (· ≤ ·) ds ∧
      nonHeads (removeEmptySections [Block.heading ⟨1, 1⟩ 1 ⟨⟨1, 1⟩, []⟩,
          Block.heading ⟨3, 3⟩ 1 ⟨⟨3, 3⟩, []⟩, Block.paragraph ⟨5, 5⟩ ⟨⟨5, 5⟩, []⟩]) =
        List.zipWith (fun b d => addLines b (-d))
          (nonHeads [Block.heading ⟨1, 1⟩ 1 ⟨⟨1, 1⟩, []⟩,
            Block.heading ⟨3, 3⟩ 1 ⟨⟨3, 3⟩, []⟩, Block.paragraph ⟨5, 5⟩ ⟨⟨5, 5⟩, []⟩]) ds :=
  ⟨by decide, claim_C10_amended _ (by decide)⟩

/-- C10 counterexample: with a Heading whose position is invalid (endLine <
startLine − 2, impossible for parser output but allowed by the type), the
pruner's delta goes negative, so the surviving paragraph is shifted *up*:
no non-negative delta sequence explains the output, refuting the claim as
stated for arbitrary block sequences. -/
theorem claim_C10_cex :
    nonHeads (removeEmptySections [Block.heading ⟨5, 0⟩ 1 ⟨⟨0, 0⟩, []⟩,
        Block.heading ⟨1, 1⟩ 1 ⟨⟨0, 0⟩, []⟩, Block.paragraph ⟨1, 1⟩ ⟨⟨1, 1⟩, []⟩]) =
      [Block.paragraph ⟨4, 4⟩ ⟨⟨1, 1⟩, []⟩] ∧
    nonHeads [Block.heading ⟨5, 0⟩ 1 ⟨⟨0, 0⟩, []⟩,
        Block.heading ⟨1, 1⟩ 1 ⟨⟨0, 0⟩, []⟩, Block.paragraph ⟨1, 1⟩ ⟨⟨1, 1⟩, []⟩] =
      [Block.paragraph ⟨1, 1⟩ ⟨⟨1, 1⟩, []⟩] ∧
    ¬∃ ds : List Int,
      ds.length = (nonHeads [Block.heading ⟨5, 0⟩ 1 ⟨⟨0, 0⟩, []⟩,
        Block.heading ⟨1, 1⟩ 1 ⟨⟨0, 0⟩, []⟩, Block.paragraph ⟨1, 1⟩ ⟨⟨1, 1⟩, []⟩]).length ∧
      (∀ d ∈ ds, 0 ≤ d) ∧
      List.Chain' (· ≤ ·) ds ∧
      nonHeads (removeEmptySections [Block.heading ⟨5, 0⟩ 1 ⟨⟨0, 0⟩, []⟩,
          Block.heading ⟨1, 1⟩ 1 ⟨⟨0, 0⟩, []⟩, Block.paragraph ⟨1, 1⟩ ⟨⟨1, 1⟩, []⟩]) =
        List.zipWith (fun b d => addLines b (-d))
          (nonHeads [Block.heading ⟨5, 0⟩ 1 ⟨⟨0, 0⟩, []⟩,
            Block.heading ⟨1, 1⟩ 1 ⟨⟨0, 0⟩, []⟩, Block.paragraph ⟨1, 1⟩ ⟨⟨1, 1⟩, []⟩]) ds := by
  have e1 : nonHeads (removeEmptySections [Block.heading ⟨5, 0⟩ 1 ⟨⟨0, 0⟩, []⟩,
      Block.heading ⟨1, 1⟩ 1 ⟨⟨0, 0⟩, []⟩, Block.paragraph ⟨1, 1⟩ ⟨⟨1, 1⟩, []⟩]) =
      [Block.paragraph ⟨4, 4⟩ ⟨⟨1, 1⟩, []⟩] := by decide
  have e2 : nonHeads [Block.heading ⟨5, 0⟩ 1 ⟨⟨0, 0⟩, []⟩,
      Block.heading ⟨1, 1⟩ 1 ⟨⟨0, 0⟩, []⟩, Block.paragraph ⟨1, 1⟩ ⟨⟨1, 1⟩, []⟩] =
      [Block.paragraph ⟨1, 1⟩ ⟨⟨1, 1⟩, []⟩] := by decide
  refine ⟨e1, e2, ?_⟩
  rintro ⟨ds, hlen, hpos, -, heq⟩
  rw [e1, e2] at heq
  rw [e2] at hlen
  rcases ds with - | ⟨d, ds'⟩
  · simp at hlen
  rcases ds' with - | ⟨d2, ds''⟩
  · have hd := hpos d (by simp)
    simp only [List.zipWith, addLines] at heq
    rw [List.cons.injEq] at heq
    have hp := heq.1
    rw [Block.paragraph.injEq, Position.mk.injEq] at hp
    have := hp.1.1
    omega
  · simp at hlen


/-- A kernel-reducible decision procedure for `List.Chain` (Mathlib's
instance is built by tactics and does not evaluate inside `decide`). -/
def decChainAux {α : Type} (r : α → α → Prop) [DecidableRel r] :
    (a : α) → (l : List α) → Decidable (List.Chain r a l)
  | _, [] => .isTrue List.Chain.nil
  | a, b :: bs =>
    have : Decidable (List.Chain r b bs) := decChainAux r b bs
    decidable_of_iff (r a b ∧ List.Chain r b bs) List.chain_cons.symm

instance (priority := 1100) decChainInst {α : Type} (r : α → α → Prop) [DecidableRel r]
    (a : α) (l : List α) : Decidable (List.Chain r a l) :=
  decChainAux r a l

instance (priority := 1100) decChainInst' {α : Type} (r : α → α → Prop) [DecidableRel r] :
    (l : List α) → Decidable (List.Chain' r l)
  | [] => .isTrue trivial
  | a :: as => decChainAux r a as

/-! ### Position separation and monotonicity (C1) -/

/-- A block's own position is a valid range. -/
def posOK (b : Block) : Prop := b.pos.startLine ≤ b.pos.endLine

/-- Two blocks separated by at least one blank line (as the parser produces
for distinct blocks of a fragment once Empty markers are dropped, and as
Merge establishes between files). -/
def blockSep (a b : Block) : Prop := a.pos.endLine + 2 ≤ b.pos.startLine

/-- A block sequence with valid positions and at least one blank line between
adjacent blocks. -/
def WellSeparated (bs : List Block) : Prop :=
  (∀ b ∈ bs, posOK b) ∧ List.Chain' blockSep bs

/-- Monotone positions between adjacent blocks, as the claim states them. -/
def posMono (a b : Block) : Prop := a.pos.endLine ≤ b.pos.startLine

/-- Monotone positions, except that the second block may be the trailing
Empty block that Merge positions exactly two lines below the *start and end*
of the preceding block. -/
def posMonoOrTrailing (a b : Block) : Prop :=
  posMono a b ∨ (isEmptyBlock b = true ∧
    b.pos.startLine = a.pos.startLine + 2 ∧ b.pos.endLine = a.pos.endLine + 2)

instance : DecidablePred posOK := fun b => inferInstanceAs (Decidable (_ ≤ _))

instance : DecidableRel blockSep := fun a b => inferInstanceAs (Decidable (_ ≤ _))

instance : DecidableRel posMono := fun a b => inferInstanceAs (Decidable (_ ≤ _))

instance : DecidableRel posMonoOrTrailing := fun a b =>
  inferInstanceAs (Decidable (_ ∨ _))

instance (bs : List Block) : Decidable (WellSeparated bs) :=
  inferInstanceAs (Decidable (_ ∧ _))

/-- The separation relation strengthened with validity of the right block;
transitive, which `blockSep` alone is not. -/
def sepValid (a b : Block) : Prop := blockSep a b ∧ posOK b

instance : IsTrans Block sepValid :=
  ⟨fun a b c hab hbc => ⟨by
      have h1 := hab.1
      have h2 := hab.2
      have h3 := hbc.1
      unfold blockSep at h1 h3 ⊢
      unfold posOK at h2
      omega, hbc.2⟩⟩

theorem chain_sepValid_of_wellSeparated {bs : List Block} (h : WellSeparated bs) :
    List.Chain' sepValid bs := by
  obtain ⟨hv, hc⟩ := h
  induction bs with
  | nil => exact List.chain'_nil
  | cons b rest ih =>
    rw [List.chain'_cons'] at hc ⊢
    refine ⟨?_, ih (fun x hx => hv x (by simp [hx])) hc.2⟩
    intro y hy
    exact ⟨hc.1 y hy, hv y (by
      rcases rest with - | ⟨r, rs⟩
      · simp at hy
      · simp only [List.head?_cons, Option.mem_def, Option.some.injEq] at hy
        subst hy
        simp)⟩

theorem wellSeparated_of_chain_sepValid :
    ∀ bs : List Block, List.Chain' sepValid bs → (∀ b ∈ bs.head?, posOK b) →
    WellSeparated bs := by
  intro bs
  induction bs with
  | nil => intro _ _; exact ⟨by simp, List.chain'_nil⟩
  | cons x rest ih =>
    intro hc hhead
    rw [List.chain'_cons'] at hc
    have hxok : posOK x := hhead x (by simp)
    have hrest : WellSeparated rest := by
      apply ih hc.2
      intro b hb
      exact (hc.1 b hb).2
    refine ⟨?_, ?_⟩
    · intro b hb
      rcases List.mem_cons.mp hb with rfl | hb'
      · exact hxok
      · exact hrest.1 b hb'
    · rw [List.chain'_cons']
      exact ⟨fun y hy => (hc.1 y hy).1, hrest.2⟩

theorem WellSeparated.sublist {l₁ l₂ : List Block} (h : WellSeparated l₂) (hs : List.Sublist l₁ l₂) :
    WellSeparated l₁ := by
  have hc₂ : List.Chain' sepValid l₂ := chain_sepValid_of_wellSeparated h
  have hc₁ : List.Chain' sepValid l₁ := hc₂.sublist hs
  apply wellSeparated_of_chain_sepValid l₁ hc₁
  intro b hb
  exact h.1 b (hs.mem (List.mem_of_mem_head? hb))

theorem posOK_addLines (b : Block) (n : Int) (h : posOK b) : posOK (addLines b n) := by
  unfold posOK at h ⊢
  cases b <;> simp [addLines, Block.pos] at h ⊢ <;> omega

theorem pos_addLines (b : Block) (n : Int) :
    (addLines b n).pos.startLine = b.pos.startLine + n ∧
    (addLines b n).pos.endLine = b.pos.endLine + n := by
  cases b <;> simp [addLines, Block.pos]

/-- `rem` leaves a suffix of the stack. -/
theorem remHeadings_suffix (L : Int) :
    ∀ (res : List Block) (delta : Int), List.IsSuffix (remHeadings L res delta).1 res := by
  intro res
  induction res with
  | nil => intro delta; simp [remHeadings]
  | cons b rest ih =>
    intro delta
    match b with
    | .heading p lvl t =>
      by_cases hL : L ≤ lvl
      · have h1 := ih (delta + (p.endLine - p.startLine + 2))
        rw [show remHeadings L (Block.heading p lvl t :: rest) delta =
          remHeadings L rest (delta + (p.endLine - p.startLine + 2)) by
            simp [remHeadings, hL]]
        exact h1.trans (List.suffix_cons _ _)
      · simp [remHeadings, hL]
    | .textblk t => simp [remHeadings]
    | .codeBlock p t => simp [remHeadings]
    | .htmlBlock p t => simp [remHeadings]
    | .list p t => simp [remHeadings]
    | .item p t => simp [remHeadings]
    | .empty p => simp [remHeadings]
    | .paragraph p t => simp [remHeadings]
    | .quote p t => simp [remHeadings]

/-- The key `rem` arithmetic: if the stack top clears line `t - delta` by a
blank line, and the stack is reverse-separated, the popped stack's top clears
`t - delta'` for the increased delta' as well. -/
theorem remHeadings_headLink (L : Int) :
    ∀ (res : List Block) (delta : Int) (t : Int),
    List.Chain' (flip blockSep) res →
    (∀ x ∈ res.head?, x.pos.endLine + 2 ≤ t - delta) →
    (∀ x ∈ (remHeadings L res delta).1.head?,
      x.pos.endLine + 2 ≤ t - (remHeadings L res delta).2) := by
  intro res
  induction res with
  | nil => intro delta t _ _ x hx; simp [remHeadings] at hx
  | cons b rest ih =>
    intro delta t hchain hhead
    match b with
    | .heading p lvl t' =>
      by_cases hL : L ≤ lvl
      · rw [show remHeadings L (Block.heading p lvl t' :: rest) delta =
          remHeadings L rest (delta + (p.endLine - p.startLine + 2)) by
            simp [remHeadings, hL]]
        apply ih
        · exact hchain.tail
        · intro x hx
          have hx' : flip blockSep (Block.heading p lvl t') x :=
            (List.chain'_cons'.mp hchain).1 x hx
          have hb : p.endLine + 2 ≤ t - delta :=
            hhead (Block.heading p lvl t') (by simp)
          unfold flip blockSep at hx'
          simp only [Block.pos] at hx' hb ⊢
          omega
      · rw [show remHeadings L (Block.heading p lvl t' :: rest) delta =
          (Block.heading p lvl t' :: rest, delta) by simp [remHeadings, hL]]
        exact hhead
    | .textblk t' => exact hhead
    | .codeBlock p t' => exact hhead
    | .htmlBlock p t' => exact hhead
    | .list p t' => exact hhead
    | .item p t' => exact hhead
    | .empty p => exact hhead
    | .paragraph p t' => exact hhead
    | .quote p t' => exact hhead


/-- The pruner's loop keeps the (reversed) stack well separated, provided the
remaining input is well separated and the stack top clears the next input
block (shifted by delta) by a blank line. -/
theorem pruneLoop_sep :
    ∀ (bs res : List Block) (delta : Int),
    (∀ b ∈ bs, posOK b) → List.Chain' blockSep bs →
    (∀ b ∈ res, posOK b) → List.Chain' (flip blockSep) res →
    (∀ x ∈ res.head?, ∀ y ∈ bs.head?, x.pos.endLine + 2 ≤ y.pos.startLine - delta) →
    (∀ b ∈ (pruneLoop bs res delta).1, posOK b) ∧
    List.Chain' (flip blockSep) (pruneLoop bs res delta).1 := by
  intro bs
  induction bs with
  | nil => intro res delta _ _ hrv hrc _; exact ⟨hrv, hrc⟩
  | cons b bs' ih =>
    intro res delta hbv hbc hrv hrc hlink
    have hbok : posOK b := hbv b (by simp)
    have hbv' : ∀ x ∈ bs', posOK x := fun x hx => hbv x (by simp [hx])
    have hbc' : List.Chain' blockSep bs' := hbc.tail
    have hnext : ∀ y ∈ bs'.head?, blockSep b y := (List.chain'_cons'.mp hbc).1
    by_cases hb : isHeading b = true
    · obtain ⟨p, lvl, t, rfl⟩ := (isHeading_iff b).mp hb
      have hsuf := remHeadings_suffix lvl res delta
      have hrv₁ : ∀ x ∈ (remHeadings lvl res delta).1, posOK x :=
        fun x hx => hrv x (hsuf.sublist.mem hx)
      have hrc₁ : List.Chain' (flip blockSep) (remHeadings lvl res delta).1 :=
        hrc.suffix hsuf
      have hlink₁ : ∀ x ∈ (remHeadings lvl res delta).1.head?,
          x.pos.endLine + 2 ≤ (Block.heading p lvl t).pos.startLine -
            (remHeadings lvl res delta).2 := by
        apply remHeadings_headLink lvl res delta _ hrc
        intro x hx
        exact hlink x hx (Block.heading p lvl t) (by simp)
      show (∀ x ∈ (pruneLoop bs' (addLines (Block.heading p lvl t)
          (-(remHeadings lvl res delta).2) :: (remHeadings lvl res delta).1)
            (remHeadings lvl res delta).2).1, posOK x) ∧ _
      apply ih
      · exact hbv'
      · exact hbc'
      · intro x hx
        rcases List.mem_cons.mp hx with rfl | hx'
        · exact posOK_addLines _ _ hbok
        · exact hrv₁ x hx'
      · rw [List.chain'_cons']
        refine ⟨?_, hrc₁⟩
        intro y hy
        have h1 := hlink₁ y hy
        obtain ⟨hs, he⟩ := pos_addLines (Block.heading p lvl t)
          (-(remHeadings lvl res delta).2)
        unfold flip blockSep
        omega
      · intro x hx y hy
        simp only [List.head?_cons, Option.mem_def, Option.some.injEq] at hx
        subst hx
        have h2 := hnext y hy
        obtain ⟨hs, he⟩ := pos_addLines (Block.heading p lvl t)
          (-(remHeadings lvl res delta).2)
        unfold blockSep at h2
        omega
    · simp only [Bool.not_eq_true] at hb
      rw [pruneLoop_cons_not_heading b hb]
      apply ih
      · exact hbv'
      · exact hbc'
      · intro x hx
        rcases List.mem_cons.mp hx with rfl | hx'
        · exact posOK_addLines _ _ hbok
        · exact hrv x hx'
      · rw [List.chain'_cons']
        refine ⟨?_, hrc⟩
        intro y hy
        have h1 := hlink y hy b (by simp)
        obtain ⟨hs, he⟩ := pos_addLines b (-delta)
        unfold flip blockSep
        omega
      · intro x hx y hy
        simp only [List.head?_cons, Option.mem_def, Option.some.injEq] at hx
        subst hx
        have h2 := hnext y hy
        obtain ⟨hs, he⟩ := pos_addLines b (-delta)
        unfold blockSep at h2
        omega

/-- Pruning a well-separated block sequence yields a well-separated one. -/
theorem removeEmptySections_sep (bs : List Block) (h : WellSeparated bs) :
    WellSeparated (removeEmptySections bs) := by
  obtain ⟨hv, hc⟩ := h
  obtain ⟨v1, c1⟩ := pruneLoop_sep bs [] 0 hv hc (by simp) (by simp) (by simp)
  have hsuf := remHeadings_suffix 1 (pruneLoop bs [] 0).1 (pruneLoop bs [] 0).2
  have v2 : ∀ b ∈ (remHeadings 1 (pruneLoop bs [] 0).1 (pruneLoop bs [] 0).2).1, posOK b :=
    fun b hb => v1 b (hsuf.sublist.mem hb)
  have c2 : List.Chain' (flip blockSep)
      (remHeadings 1 (pruneLoop bs [] 0).1 (pruneLoop bs [] 0).2).1 := c1.suffix hsuf
  have h0 : removeEmptySections bs =
      (remHeadings 1 (pruneLoop bs [] 0).1 (pruneLoop bs [] 0).2).1.reverse := rfl
  rw [h0]
  constructor
  · intro b hb
    exact v2 b (List.mem_reverse.mp hb)
  · exact List.chain'_reverse.mpr c2


theorem getLast?_lastBlock (bs : List Block) (h : bs ≠ []) :
    bs.getLast? = some (lastBlock bs) := by
  rcases hg : bs.getLast? with - | x
  · exact absurd (List.getLast?_eq_none_iff.mp hg) h
  · unfold lastBlock
    rw [List.getLastD_eq_getLast?, hg]
    rfl

theorem head?_headBlock (bs : List Block) (h : bs ≠ []) :
    bs.head? = some (headBlock bs) := by
  rcases bs with - | ⟨x, xs⟩
  · exact absurd rfl h
  · rfl

theorem wellSeparated_append {A B : List Block} (hA : WellSeparated A)
    (hB : WellSeparated B)
    (hAB : ∀ a ∈ A.getLast?, ∀ b ∈ B.head?, blockSep a b) :
    WellSeparated (A ++ B) := by
  constructor
  · intro b hb
    rcases List.mem_append.mp hb with h | h
    · exact hA.1 b h
    · exact hB.1 b h
  · exact List.chain'_append.mpr ⟨hA.2, hB.2, hAB⟩

theorem wellSeparated_map_addLines {bs : List Block} (n : Int) (h : WellSeparated bs) :
    WellSeparated (bs.map (fun b => addLines b n)) := by
  constructor
  · intro b hb
    obtain ⟨a, ha, rfl⟩ := List.mem_map.mp hb
    exact posOK_addLines a n (h.1 a ha)
  · rw [List.chain'_map]
    apply h.2.imp
    intro a b hab
    obtain ⟨hs₁, he₁⟩ := pos_addLines a n
    obtain ⟨hs₂, he₂⟩ := pos_addLines b n
    unfold blockSep at hab ⊢
    omega

theorem accWithPkgHeading_ne_nil (st : MergeState) (pkg : Str) (h : st.blocks ≠ []) :
    accWithPkgHeading st pkg ≠ [] := by
  unfold accWithPkgHeading
  split
  · intro hc
    obtain ⟨-, h2⟩ := List.append_eq_nil.mp hc
    exact List.noConfusion h2
  · exact h

/-- The accumulator stays well separated through the optional package-heading
insertion, and its last block's end line never decreases. -/
theorem accWithPkgHeading_sep (st : MergeState) (pkg : Str) (hne : st.blocks ≠ [])
    (h : WellSeparated st.blocks) :
    WellSeparated (accWithPkgHeading st pkg) ∧
    (lastBlock st.blocks).pos.endLine ≤ (lastBlock (accWithPkgHeading st pkg)).pos.endLine := by
  unfold accWithPkgHeading
  split
  · constructor
    · apply wellSeparated_append h
      · constructor
        · intro b hb
          simp only [List.mem_singleton] at hb
          subst hb
          unfold posOK stdlibPackageHeading Block.pos
          simp
        · simp
      · intro a ha b hb
        rw [getLast?_lastBlock st.blocks hne] at ha
        simp only [Option.mem_def, Option.some.injEq, List.head?_cons] at ha hb
        subst ha
        subst hb
        unfold blockSep stdlibPackageHeading Block.pos
        simp
    · have h1 : lastBlock (st.blocks ++
          [stdlibPackageHeading pkg (lastBlock st.blocks).pos.endLine]) =
          stdlibPackageHeading pkg (lastBlock st.blocks).pos.endLine := by
        unfold lastBlock
        exact List.getLastD_concat _ _ _
      rw [h1]
      show (lastBlock st.blocks).pos.endLine ≤ (lastBlock st.blocks).pos.endLine + 2
      omega
  · exact ⟨h, le_refl _⟩

/-- One file step of Merge keeps the accumulator's blocks well separated. -/
theorem mergeFile_sep (st : MergeState) (fn : Str) (d : Document) (st' : MergeState)
    (hst : WellSeparated st.blocks) (hd : WellSeparated d.blocks)
    (hok : mergeFile st fn d = .ok st') : WellSeparated st'.blocks := by
  by_cases hdb : d.blocks = []
  · rw [show mergeFile st fn d = .ok st by unfold mergeFile; rw [if_pos hdb]] at hok
    injection hok with hok'
    rw [← hok']
    exact hst
  by_cases hsb : st.blocks = []
  · rw [mergeFile_empty_acc st fn d hdb hsb] at hok
    rcases hml : mergeLinks fn st.links d.links with e | links'
    · rw [hml] at hok
      exact absurd hok (by simp)
    · rw [hml] at hok
      injection hok with hok'
      rw [← hok']
      exact hd.sublist (List.filter_sublist _)
  · rw [mergeFile_ok_eq st fn d hdb hsb] at hok
    rcases hml : mergeLinks fn st.links d.links with e | links'
    · rw [hml] at hok
      exact absurd hok (by simp)
    · rw [hml] at hok
      injection hok with hok'
      rw [← hok']
      show WellSeparated (accWithPkgHeading st (stdlibPackage fn) ++ _)
      obtain ⟨hacc, -⟩ := accWithPkgHeading_sep st (stdlibPackage fn) hsb hst
      have haccne : accWithPkgHeading st (stdlibPackage fn) ≠ [] :=
        accWithPkgHeading_ne_nil st (stdlibPackage fn) hsb
      have hws : WellSeparated (accWithPkgHeading st (stdlibPackage fn) ++
          d.blocks.map (fun b => addLines b
            ((lastBlock (accWithPkgHeading st (stdlibPackage fn))).pos.endLine + 2 -
              (headBlock d.blocks).pos.startLine))) := by
        apply wellSeparated_append hacc
        · exact wellSeparated_map_addLines _ hd
        · intro a ha b hb
          rw [getLast?_lastBlock _ haccne] at ha
          simp only [Option.mem_def, Option.some.injEq] at ha
          subst ha
          rw [List.head?_map, head?_headBlock d.blocks hdb] at hb
          simp only [Option.map_some', Option.mem_def, Option.some.injEq] at hb
          subst hb
          obtain ⟨hs, he⟩ := pos_addLines (headBlock d.blocks)
            ((lastBlock (accWithPkgHeading st (stdlibPackage fn))).pos.endLine + 2 -
              (headBlock d.blocks).pos.startLine)
          unfold blockSep
          omega
      exact hws.sublist (List.Sublist.append_left (List.filter_sublist _) _)

/-- The whole merge loop keeps the accumulator's blocks well separated. -/
theorem mergeLoop_sep :
    ∀ (files : List (Str × Document)) (st : MergeState),
    (∀ p ∈ files, WellSeparated p.2.blocks) → WellSeparated st.blocks →
    ∀ st', mergeLoop st files = .ok st' → WellSeparated st'.blocks := by
  intro files
  induction files with
  | nil =>
    intro st _ hst st' hok
    injection hok with hok'
    rw [← hok']
    exact hst
  | cons p rest ih =>
    rcases p with ⟨fn, d⟩
    intro st hfiles hst st' hok
    rcases hmf : mergeFile st fn d with e | st₁
    · rw [show mergeLoop st ((fn, d) :: rest) =
        match mergeFile st fn d with
        | .error e => .error e
        | .ok st' => mergeLoop st' rest from rfl, hmf] at hok
      exact absurd hok (by simp)
    · rw [show mergeLoop st ((fn, d) :: rest) =
        match mergeFile st fn d with
        | .error e => .error e
        | .ok st' => mergeLoop st' rest from rfl, hmf] at hok
      have h₁ : WellSeparated st₁.blocks :=
        mergeFile_sep st fn d st₁ hst (hfiles (fn, d) (by simp)) hmf
      exact ih st₁ (fun q hq => hfiles q (by simp [hq])) h₁ st' hok


/-- The tail of Merge: pruning plus the optional trailing Empty yields
blocks whose adjacent positions are monotone up to the specially positioned
trailing Empty. -/
theorem mergeDocs_mono (files : List (Str × Document))
    (h : ∀ p ∈ files, WellSeparated p.2.blocks) :
    ∀ d, mergeDocs files = .ok d → List.Chain' posMonoOrTrailing d.blocks := by
  intro d hok
  rcases hml : mergeLoop ⟨[], [], []⟩ files with e | st
  · unfold mergeDocs at hok
    rw [hml] at hok
    exact absurd hok (by simp)
  · unfold mergeDocs at hok
    rw [hml] at hok
    dsimp only at hok
    have hws : WellSeparated (removeEmptySections st.blocks) :=
      removeEmptySections_sep _
        (mergeLoop_sep files ⟨[], [], []⟩ h ⟨by simp, List.chain'_nil⟩ st hml)
    by_cases hc : removeEmptySections st.blocks ≠ [] ∧ st.links ≠ []
    · rw [if_pos hc] at hok
      injection hok with hok'
      rw [← hok']
      apply List.chain'_append.mpr
      refine ⟨hws.2.imp (fun a b hab => Or.inl (by
        unfold blockSep at hab
        unfold posMono
        omega)), by simp, ?_⟩
      intro a ha b hb
      rw [getLast?_lastBlock _ hc.1] at ha
      simp only [Option.mem_def, Option.some.injEq, List.head?_cons] at ha hb
      subst ha
      subst hb
      right
      exact ⟨rfl, rfl, rfl⟩
    · rw [if_neg hc] at hok
      injection hok with hok'
      rw [← hok']
      exact hws.2.imp (fun a b hab => Or.inl (by
        unfold blockSep at hab
        unfold posMono
        omega))

theorem lookupDoc_cases : ∀ (fsys : List (Str × Document)) (fn : Str),
    lookupDoc fsys fn = (⟨[], []⟩ : Document) ∨ ∃ q ∈ fsys, lookupDoc fsys fn = q.2 := by
  intro fsys
  induction fsys with
  | nil => intro fn; left; rfl
  | cons p rest ih =>
    intro fn
    rcases p with ⟨fn', d⟩
    by_cases h : (fn' == fn) = true
    · right
      exact ⟨(fn', d), by simp, by unfold lookupDoc; rw [if_pos h]⟩
    · rcases ih fn with h1 | ⟨q, hq, h2⟩
      · left
        unfold lookupDoc
        rw [if_neg h]
        exact h1
      · right
        exact ⟨q, by simp [hq], by unfold lookupDoc; rw [if_neg h]; exact h2⟩

/-- C1 (amended): for every input whose blocks have valid positions and at
least one blank line between adjacent blocks (a.endLine + 2 ≤ b.startLine) —
as parser output separated by blank lines provides — every block sequence
returned by removeEmptySections has monotone adjacent positions (a.endLine ≤
b.startLine), and every Document returned by Merge on such fragments has
monotone adjacent positions except possibly at the trailing Empty block,
which sits exactly two lines below the *start and end* lines of the block
before it (and therefore may start before that block's end line when the
block spans four or more lines). -/
theorem claim_C1_amended :
    (∀ bs : List Block, WellSeparated bs →
      List.Chain' posMono (removeEmptySections bs))
  ∧ (∀ (fsys : List (Str × Document)) (d : Document),
      (∀ p ∈ fsys, WellSeparated p.2.blocks) → Merge fsys = .ok d →
      List.Chain' posMonoOrTrailing d.blocks) := by
  constructor
  · intro bs h
    exact (removeEmptySections_sep bs h).2.imp (fun a b hab => by
      unfold blockSep at hab
      unfold posMono
      omega)
  · intro fsys d hf hok
    unfold Merge at hok
    apply mergeDocs_mono _ ?_ d hok
    intro p hp
    obtain ⟨fn, -, rfl⟩ := List.mem_map.mp hp
    rcases lookupDoc_cases fsys fn with h1 | ⟨q, hq, h2⟩
    · show WellSeparated (lookupDoc fsys fn).blocks
      rw [h1]
      exact ⟨by simp, List.chain'_nil⟩
    · show WellSeparated (lookupDoc fsys fn).blocks
      rw [h2]
      exact hf q hq

theorem claim_C1_witness :
    (WellSeparated [Block.paragraph ⟨1, 1⟩ ⟨⟨1, 1⟩, []⟩,
        Block.heading ⟨3, 3⟩ 1 ⟨⟨3, 3⟩, []⟩, Block.paragraph ⟨5, 5⟩ ⟨⟨5, 5⟩, []⟩] ∧
      List.Chain' posMono (removeEmptySections [Block.paragraph ⟨1, 1⟩ ⟨⟨1, 1⟩, []⟩,
        Block.heading ⟨3, 3⟩ 1 ⟨⟨3, 3⟩, []⟩, Block.paragraph ⟨5, 5⟩ ⟨⟨5, 5⟩, []⟩])) ∧
    ((∀ p ∈ [("a.md".toList,
        (⟨[Block.paragraph ⟨1, 1⟩ ⟨⟨1, 1⟩, [.plain "x.".toList]⟩],
          [("k".toList, ⟨"u".toList, []⟩)]⟩ : Document))], WellSeparated p.2.blocks) ∧
      List.Chain' posMonoOrTrailing
        (Document.blocks ⟨[Block.paragraph ⟨1, 1⟩ ⟨⟨1, 1⟩, [.plain "x.".toList]⟩,
          Block.empty ⟨3, 3⟩], [("k".toList, ⟨"u".toList, []⟩)]⟩)) :=
  ⟨⟨by decide, claim_C1_amended.1 _ (by decide)⟩,
   ⟨by decide, claim_C1_amended.2
      [("a.md".toList, ⟨[Block.paragraph ⟨1, 1⟩ ⟨⟨1, 1⟩, [.plain "x.".toList]⟩,],
        [("k".toList, ⟨"u".toList, []⟩)]⟩)]
      ⟨[Block.paragraph ⟨1, 1⟩ ⟨⟨1, 1⟩, [.plain "x.".toList]⟩, Block.empty ⟨3, 3⟩],
        [("k".toList, ⟨"u".toList, []⟩)]⟩ (by decide) (by decide)⟩⟩

/-- C1 counterexample: (i) pruning a parse-realistic sequence — a paragraph
followed by headings on consecutive lines (levels 3, 2, 1) — produces
adjacent blocks with decreasing positions, because each discarded heading is
assumed to carry a following blank line that is not there; (ii) Merge of a
single fragment whose last block spans four lines and which has a link map
appends a trailing Empty block at (startLine+2, endLine+2) of that block,
which starts before the block ends.  Both outputs violate
a.endLine ≤ b.startLine on an adjacent pair. -/
theorem claim_C1_cex :
    ¬ List.Chain' posMono (removeEmptySections
      [Block.paragraph ⟨1, 1⟩ ⟨⟨1, 1⟩, []⟩,
       Block.heading ⟨2, 2⟩ 3 ⟨⟨2, 2⟩, []⟩,
       Block.heading ⟨3, 3⟩ 2 ⟨⟨3, 3⟩, []⟩,
       Block.heading ⟨4, 4⟩ 1 ⟨⟨4, 4⟩, []⟩,
       Block.paragraph ⟨5, 5⟩ ⟨⟨5, 5⟩, []⟩])
  ∧ (Merge [("a.md".toList,
      ⟨[Block.heading ⟨1, 1⟩ 1 ⟨⟨1, 1⟩, [.plain "T".toList]⟩, Block.list ⟨3, 6⟩ []],
        [("k".toList, ⟨"u".toList, []⟩)]⟩)] =
      .ok ⟨[Block.heading ⟨1, 1⟩ 1 ⟨⟨1, 1⟩, [.plain "T".toList]⟩, Block.list ⟨3, 6⟩ [],
        Block.empty ⟨5, 8⟩], [("k".toList, ⟨"u".toList, []⟩)]⟩
    ∧ ¬ List.Chain' posMono [Block.heading ⟨1, 1⟩ 1 ⟨⟨1, 1⟩, [.plain "T".toList]⟩,
        Block.list ⟨3, 6⟩ [], Block.empty ⟨5, 8⟩]) := by
  refine ⟨by decide, by decide, by decide⟩

end Relnote
